import Mathlib

/-!
Verification of the RAG (retrieval-augmented generation) core of the backend,
as implemented in `backend/app/services/rag_service.py`.

Python strings are modelled as `List Char` (`Str`).  The text splitter is an
embedding of the recursive split-and-merge algorithm of langchain's
`RecursiveCharacterTextSplitter` as configured in `RAGService.__init__`
(chunk_size 1000, chunk_overlap 200, separators `["\n\n", "\n", ". ", " ", ""]`,
default `keep_separator=True`, length function `RAGService._count_tokens`).
The tokenizer (`tiktoken`) is an external binary resource and is kept as a
parameter `lenf : Str → Nat`; its in-repo fallback `len(text) // 4`
(rag_service.py line 64) is embedded as `fallbackTokenCount`.

The vector store (ChromaDB) is external to the repository; collections are
modelled from the spec's Vector Index contract (spec §4.3): a per-name
association list of chunk records where colliding chunk ids overwrite, and
search returns at most `top_k` entries sorted by non-decreasing distance.
-/

/-- Python strings, modelled as lists of characters. -/
abbrev Str := List Char

/-- Python `str.strip()` whitespace set (ASCII part, which is all that the
separator and token machinery of the service can produce). -/
def isSpaceChar (c : Char) : Bool :=
  c = ' ' || c = '\n' || c = '\t' || c = '\r' || c = Char.ofNat 11 || c = Char.ofNat 12

/-- Python `str.strip()`: drop whitespace from both ends. -/
def stripChars (s : Str) : Str :=
  ((s.dropWhile isSpaceChar).reverse.dropWhile isSpaceChar).reverse

/-- Does `pat` occur at the start of `text`? -/
def startsWithL : Str → Str → Bool
  | [], _ => true
  | _ :: _, [] => false
  | a :: pa, b :: tb => a = b && startsWithL pa tb

/-- Does `pat` occur somewhere inside `text` (Python `re.search` with an
escaped literal pattern)? -/
def occursL (pat : Str) : Str → Bool
  | [] => startsWithL pat []
  | c :: rest => startsWithL pat (c :: rest) || occursL pat rest

/-- Python `re.split` on a non-empty literal separator: the list of maximal
separator-free pieces, scanning left to right.  `fuel` bounds the recursion;
`fuel = text.length + 1` always suffices for a non-empty separator. -/
def splitOnSepAux (sep : Str) : Nat → Str → Str → List Str
  | 0, text, acc => [acc.reverse ++ text]
  | fuel + 1, text, acc =>
    match text with
    | [] => [acc.reverse]
    | c :: rest =>
      if startsWithL sep text then
        acc.reverse :: splitOnSepAux sep fuel (text.drop sep.length) []
      else
        splitOnSepAux sep fuel rest (c :: acc)

/-- Split `text` at every occurrence of the non-empty literal `sep`. -/
def splitOnSep (sep : Str) (text : Str) : List Str :=
  splitOnSepAux sep (text.length + 1) text []

/-- langchain `_split_text_with_regex` with `keep_separator=True`: split on the
separator and re-attach each separator occurrence to the front of the piece
that follows it; an empty separator splits into single characters; empty
pieces are filtered out. -/
def splitTextWithSep (sep : Str) (text : Str) : List Str :=
  if sep = [] then
    (text.map (fun c => ([c] : Str))).filter (fun s => s ≠ [])
  else
    match splitOnSep sep text with
    | [] => []
    | t0 :: ts => (t0 :: ts.map (fun t => sep ++ t)).filter (fun s => s ≠ [])

/-- langchain `RecursiveCharacterTextSplitter._split_text` separator choice:
walk the separator list; the first `""` ends the walk with no finer
separators; otherwise the first separator occurring in `text` is chosen with
the remaining list as the finer separators; if none matches the last
separator is chosen with no finer separators. -/
def chooseSep (text : Str) : List Str → Str × List Str
  | [] => ([], [])
  | s :: rest =>
    if s = [] then ([], [])
    else if occursL s text then (s, rest)
    else
      match rest with
      | [] => (s, [])
      | _ :: _ => chooseSep text rest

/-- Sum of measured piece lengths plus inter-piece separators: the quantity
langchain's `_merge_splits` tracks in its `total` variable. -/
def listTotal (lenf : Str → Nat) (sepLen : Nat) : List Str → Nat
  | [] => 0
  | [d] => lenf d
  | d :: rest => lenf d + sepLen + listTotal lenf sepLen rest

/-- Python `separator.join(docs)`. -/
def joinWithSep (sep : Str) : List Str → Str
  | [] => []
  | [d] => d
  | d :: rest => d ++ sep ++ joinWithSep sep rest

/-- langchain `TextSplitter._join_docs`: join the pieces with the separator,
strip whitespace, and drop the chunk if the result is empty. -/
def joinDocs (docs : List Str) (sep : Str) : Option Str :=
  let text := stripChars (joinWithSep sep docs)
  if text = [] then none else some text

/-- The pop loop inside langchain `TextSplitter._merge_splits`: after emitting
a chunk, drop pieces from the front of the running window while the window
total exceeds `overlap` or the next piece would overflow `chunkSize`.
(When the window is empty the tracked total is 0, so the Python loop guard is
false there; the `[]` case returns for the unreachable other states.) -/
def popWhile (lenf : Str → Nat) (sepLen chunkSize overlap dLen : Nat) :
    Nat → List Str → Nat × List Str
  | total, [] => (total, [])
  | total, c :: rest =>
    if total > overlap ∨ (total + dLen + sepLen > chunkSize ∧ total > 0) then
      popWhile lenf sepLen chunkSize overlap dLen
        (total - (lenf c + (if rest ≠ [] then sepLen else 0))) rest
    else (total, c :: rest)

/-- langchain `TextSplitter._merge_splits` main loop, carrying the emitted
chunks `docs`, the running window `current` and its tracked size `total`. -/
def mergeSplitsGo (lenf : Str → Nat) (sep : Str) (chunkSize overlap : Nat)
    (docs current : List Str) (total : Nat) : List Str → List Str
  | [] =>
    match joinDocs current sep with
    | some doc => docs ++ [doc]
    | none => docs
  | d :: ds =>
    let sepLen := lenf sep
    let dLen := lenf d
    if total + dLen + (if current ≠ [] then sepLen else 0) > chunkSize ∧ current ≠ [] then
      let docs' :=
        match joinDocs current sep with
        | some doc => docs ++ [doc]
        | none => docs
      let tc := popWhile lenf sepLen chunkSize overlap dLen total current
      mergeSplitsGo lenf sep chunkSize overlap docs' (tc.2 ++ [d])
        (tc.1 + dLen + (if tc.2 ≠ [] then sepLen else 0)) ds
    else
      mergeSplitsGo lenf sep chunkSize overlap docs (current ++ [d])
        (total + dLen + (if current ≠ [] then sepLen else 0)) ds

/-- langchain `TextSplitter._merge_splits`. -/
def mergeSplits (lenf : Str → Nat) (sep : Str) (chunkSize overlap : Nat)
    (splits : List Str) : List Str :=
  mergeSplitsGo lenf sep chunkSize overlap [] [] 0 splits

/-- The per-piece loop of `_split_text`: pieces measuring under `chunkSize`
accumulate in `good` and are merged; an oversized piece flushes the
accumulator and is either recursed on (`recurse`, when finer separators
remain) or emitted as-is. -/
def processSplits (lenf : Str → Nat) (chunkSize : Nat) (mergeFn : List Str → List Str)
    (recurse : Str → List Str) (finerEmpty : Bool) :
    List Str → List Str → List Str → List Str
  | [], good, final => if good ≠ [] then final ++ mergeFn good else final
  | s :: ss, good, final =>
    if lenf s < chunkSize then
      processSplits lenf chunkSize mergeFn recurse finerEmpty ss (good ++ [s]) final
    else
      let final₁ := if good ≠ [] then final ++ mergeFn good else final
      let final₂ := if finerEmpty then final₁ ++ [s] else final₁ ++ recurse s
      processSplits lenf chunkSize mergeFn recurse finerEmpty ss [] final₂

/-- langchain `RecursiveCharacterTextSplitter._split_text`.  `fuel` bounds the
recursion depth; the finer-separator list handed to each recursive call is a
strict suffix of the tail of the current one, so `separators.length + 1`
fuel always suffices. -/
def splitTextRec (lenf : Str → Nat) (chunkSize overlap : Nat) :
    Nat → List Str → Str → List Str
  | 0, _, text => [text]
  | fuel + 1, separators, text =>
    let sn := chooseSep text separators
    let splits := splitTextWithSep sn.1 text
    processSplits lenf chunkSize
      (fun good => mergeSplits lenf [] chunkSize overlap good)
      (fun s => splitTextRec lenf chunkSize overlap fuel sn.2 s)
      (sn.2 = []) splits [] []

/-- The separator priority list configured in `RAGService.__init__`. -/
def ragSeparators : List Str :=
  ["\n\n".toList, "\n".toList, ". ".toList, " ".toList, []]

/-- `chunk_size=1000` from `RAGService.__init__`. -/
def ragChunkSize : Nat := 1000

/-- `chunk_overlap=200` from `RAGService.__init__`. -/
def ragChunkOverlap : Nat := 200

/-- `RAGService.text_splitter.split_text` with the configured parameters,
parametric in the length function (`RAGService._count_tokens`). -/
def splitText (lenf : Str → Nat) (text : Str) : List Str :=
  splitTextRec lenf ragChunkSize ragChunkOverlap (ragSeparators.length + 1)
    ragSeparators text

/-- The in-repo fallback of `RAGService._count_tokens` (rag_service.py line
64): `len(text) // 4`, used when the tiktoken tokenizer is unavailable. -/
def fallbackTokenCount (t : Str) : Nat := t.length / 4

/-- Decimal digit character (models Python integer formatting in the f-string
`f"{document_id}_chunk_{i}"`). -/
def digitChar (d : Nat) : Char := Char.ofNat (48 + d)

/-- Decimal representation of a natural number, most significant digit first;
`fuel = n + 1` always suffices. -/
def natToDigitsAux : Nat → Nat → Str
  | 0, _ => []
  | fuel + 1, n =>
    if n < 10 then [digitChar n]
    else natToDigitsAux fuel (n / 10) ++ [digitChar (n % 10)]

/-- Decimal representation of a natural number (Python `f"{i}"`). -/
def natToDigits (n : Nat) : Str := natToDigitsAux (n + 1) n

/-- Decimal value of a digit string, used to prove `natToDigits` injective. -/
def decVal (s : Str) : Nat := s.foldl (fun a c => 10 * a + (c.toNat - 48)) 0

/-- Association-list get with decidable key equality, first binding wins. -/
def assocGet {α : Type} (k : Str) : List (Str × α) → Option α
  | [] => none
  | (k', v) :: rest => if k' = k then some v else assocGet k rest

/-- Association-list set: overwrite the first binding of `k` in place, or
append a new binding at the end. -/
def assocSet {α : Type} (k : Str) (v : α) : List (Str × α) → List (Str × α)
  | [] => [(k, v)]
  | (k', v') :: rest =>
    if k' = k then (k, v) :: rest else (k', v') :: assocSet k v rest

/-- Errors raised by the external collaborators.  `retrievalUnavailable` is
the typed error the design documents name; it exists as a value so that
propagation claims about it can be stated, but nothing in the repository
defines or raises it. -/
inductive Err where
  | embeddingProviderError
  | indexError
  | retrievalUnavailable
deriving DecidableEq, Repr

/-- Embedding vectors.  The floating-point payload is irrelevant to every
claim; vectors are modelled with integer coordinates. -/
abbrev Emb := List Int

/-- Chunk metadata as assembled in `RAGService.add_document` lines 121-134:
the mandatory keys `document_id`, `user_id`, `chunk_index`, plus the
caller-supplied pairs (whose reserved keys the dict assignments overwrite,
hence they are filtered from `extra`). -/
structure ChunkMeta where
  document_id : Str
  user_id : Str
  chunk_index : Nat
  extra : List (Str × Str)
deriving DecidableEq, Repr

/-- One stored chunk: its embedding, its text and its metadata. -/
structure ChunkRec where
  embedding : Emb
  document : Str
  metadata : ChunkMeta
deriving DecidableEq, Repr

/-- Modelled from the spec: a ChromaDB collection (spec §3, §4.3) — a
per-user store of chunks keyed by chunk id, plus the collection metadata
passed at creation (`{"user_id": user_id}`, rag_service.py line 80). -/
structure Collection where
  meta_user_id : Str
  items : List (Str × ChunkRec)
deriving DecidableEq, Repr

/-- Modelled from the spec: the persistent ChromaDB client state — a map
from collection name to collection (spec §6: one physical collection per
user, named deterministically from the user id). -/
structure StoreState where
  collections : List (Str × Collection)
deriving DecidableEq, Repr

/-- A metadata `where` filter as used by the service (`delete_document`
filters on `document_id`; `query` forwards an optional caller filter). -/
inductive MetaFilter where
  | byDocumentId (d : Str)
deriving DecidableEq, Repr

/-- Does a chunk's metadata satisfy the filter? -/
def matchesFilter : Option MetaFilter → ChunkMeta → Bool
  | none, _ => true
  | some (.byDocumentId d), m => m.document_id = d

/-- The external embedding provider and the distance metric of the vector
store.  The first argument of `embedDocuments`/`embedQuery` is the attempt
index: the environment may answer differently on successive attempts, and
the service always makes exactly one call with attempt index 0 — internal
retries would consult later indices. -/
structure Env where
  embedDocuments : Nat → List Str → Except Err (List Emb)
  embedQuery : Nat → Str → Except Err Emb
  dist : Emb → Emb → Int

/-- One formatted query result (rag_service.py lines 198-203). -/
structure QueryResult where
  text : Str
  metadata : ChunkMeta
  distance : Int
  document_id : Str
deriving DecidableEq, Repr

/-- The collection-name normalization of `RAGService._get_or_create_collection`
line 76: `user_id.replace('-', '_')`. -/
def normalizeUserId (uid : Str) : Str :=
  uid.map (fun c => if c = '-' then '_' else c)

/-- `f"user_{user_id.replace('-', '_')}"` (rag_service.py line 76). -/
def collectionName (uid : Str) : Str :=
  "user_".toList ++ normalizeUserId uid

/-- `RAGService._get_or_create_collection`: look the collection up by the
normalized name, creating an empty one (with `{"user_id": user_id}` metadata)
when absent. -/
def getOrCreateCollection (s : StoreState) (uid : Str) : Collection × StoreState :=
  let name := collectionName uid
  match assocGet name s.collections with
  | some c => (c, s)
  | none =>
    let c : Collection := { meta_user_id := uid, items := [] }
    (c, ⟨assocSet name c s.collections⟩)

/-- `f"{document_id}_chunk_{i}"` (rag_service.py line 127). -/
def mkChunkId (document_id : Str) (i : Nat) : Str :=
  document_id ++ "_chunk_".toList ++ natToDigits i

/-- Modelled from the spec: ChromaDB `collection.add` per the Vector Index
contract (spec §4.3) — inserts the entries into the collection; colliding
chunk ids overwrite the existing binding. -/
def collAdd (c : Collection) (entries : List (Str × ChunkRec)) : Collection :=
  { c with items := entries.foldl (fun its e => assocSet e.1 e.2 its) c.items }

/-- Modelled from the spec: ChromaDB `collection.query` per the Vector Index
contract (spec §4.3) — nearest-neighbor search: filter by the metadata
filter, sort by distance to the query embedding (non-decreasing), return at
most `nResults` entries. -/
def collQuery (dist : Emb → Emb → Int) (c : Collection) (qe : Emb)
    (nResults : Nat) (filter : Option MetaFilter) : List (Str × ChunkRec) :=
  let cands := c.items.filter (fun p => matchesFilter filter p.2.metadata)
  (List.insertionSort
    (fun p q => dist qe p.2.embedding ≤ dist qe q.2.embedding) cands).take nResults

/-- The per-chunk metadata dicts of rag_service.py lines 121-134. -/
def buildMeta (user_id document_id : Str) (metadata : Option (List (Str × Str)))
    (i : Nat) : ChunkMeta :=
  { document_id := document_id
    user_id := user_id
    chunk_index := i
    extra := (metadata.getD []).filter
      (fun p => p.1 ≠ "document_id".toList ∧ p.1 ≠ "user_id".toList ∧
        p.1 ≠ "chunk_index".toList) }

/-- The list of `(chunk_id, record)` entries `add_document` hands to
`collection.add` (ids at line 127, zipped with embeddings, texts and
per-chunk metadata at lines 130-135). -/
def chunkEntries (user_id document_id : Str) (metadata : Option (List (Str × Str)))
    (chunks : List Str) (embs : List Emb) : List (Str × ChunkRec) :=
  (List.range chunks.length).map fun i =>
    (mkChunkId document_id i,
      { embedding := embs.getD i []
        document := chunks.getD i []
        metadata := buildMeta user_id document_id metadata i })

/-- `RAGService.add_document` (rag_service.py lines 87-142): split the text;
return 0 on no chunks; get or create the user's collection; embed every
chunk in one provider call (attempt 0); on provider failure re-raise,
leaving the store as it was after the collection lookup; otherwise add all
chunks at once and return the chunk count. -/
def addDocument (lenf : Str → Nat) (env : Env) (s : StoreState)
    (user_id document_id text : Str) (metadata : Option (List (Str × Str))) :
    Except Err Nat × StoreState :=
  let chunks := splitText lenf text
  if chunks = [] then (.ok 0, s)
  else
    let cs := getOrCreateCollection s user_id
    match env.embedDocuments 0 chunks with
    | .error e => (.error e, cs.2)
    | .ok embs =>
      let coll := collAdd cs.1 (chunkEntries user_id document_id metadata chunks embs)
      (.ok chunks.length,
        ⟨assocSet (collectionName user_id) coll cs.2.collections⟩)

/-- The result formatting of `RAGService.query` (rag_service.py lines
195-203): one row becomes `{text, metadata, distance, document_id}`. -/
def formatRow (dist : Emb → Emb → Int) (qe : Emb) (p : Str × ChunkRec) : QueryResult :=
  { text := p.2.document
    metadata := p.2.metadata
    distance := dist qe p.2.embedding
    document_id := p.2.metadata.document_id }

/-- `RAGService.query` (rag_service.py lines 161-210): get or create the
user's collection, embed the query (attempt 0, re-raising on failure), run
the nearest-neighbor search, and format each row with `formatRow`. -/
def query (env : Env) (s : StoreState) (user_id query_text : Str) (top_k : Nat)
    (filter : Option MetaFilter) : Except Err (List QueryResult) × StoreState :=
  let cs := getOrCreateCollection s user_id
  match env.embedQuery 0 query_text with
  | .error e => (.error e, cs.2)
  | .ok qe =>
    let rows := collQuery env.dist cs.1 qe top_k filter
    (.ok (rows.map (formatRow env.dist qe)), cs.2)

/-- Modelled from the spec: failure injection for the external vector-index
client (spec §4.4 failure semantics: "embedding/index transport errors
propagate to the caller").  The chromadb `collection.add` and
`collection.query` calls may raise an arbitrary exception; `some e` means
the call at that attempt index raises `e`, `none` that it succeeds.  The
attempt index mirrors `Env`'s: the service makes exactly one call with
attempt index 0, so internal retries would consult later indices. -/
structure IxEnv where
  addFail : Nat → Option Err
  queryFail : Nat → Option Err

/-- `RAGService.add_document` (rag_service.py lines 87-142) with the index
client's failure behavior made explicit: identical to `addDocument` except
that the single `collection.add` call (line 130) consults the injected
index fault and re-raises it unchanged (lines 140-142).  A raising add
writes nothing (the claims proved about this function constrain the
returned error and the calls' attempt indices, not the store the external
client leaves behind). -/
def addDocumentIx (lenf : Str → Nat) (env : Env) (ix : IxEnv) (s : StoreState)
    (user_id document_id text : Str) (metadata : Option (List (Str × Str))) :
    Except Err Nat × StoreState :=
  let chunks := splitText lenf text
  if chunks = [] then (.ok 0, s)
  else
    let cs := getOrCreateCollection s user_id
    match env.embedDocuments 0 chunks with
    | .error e => (.error e, cs.2)
    | .ok embs =>
      match ix.addFail 0 with
      | some e => (.error e, cs.2)
      | none =>
        let coll := collAdd cs.1 (chunkEntries user_id document_id metadata chunks embs)
        (.ok chunks.length,
          ⟨assocSet (collectionName user_id) coll cs.2.collections⟩)

/-- `RAGService.query` (rag_service.py lines 161-210) with the index
client's failure behavior made explicit: identical to `query` except that
the single `collection.query` call (line 188) consults the injected index
fault and re-raises it unchanged (lines 208-210). -/
def queryIx (env : Env) (ix : IxEnv) (s : StoreState) (user_id query_text : Str)
    (top_k : Nat) (filter : Option MetaFilter) :
    Except Err (List QueryResult) × StoreState :=
  let cs := getOrCreateCollection s user_id
  match env.embedQuery 0 query_text with
  | .error e => (.error e, cs.2)
  | .ok qe =>
    match ix.queryFail 0 with
    | some e => (.error e, cs.2)
    | none =>
      let rows := collQuery env.dist cs.1 qe top_k filter
      (.ok (rows.map (formatRow env.dist qe)), cs.2)

/-- An index client that never raises. -/
def okIx : IxEnv := { addFail := fun _ => none, queryFail := fun _ => none }

/-- An index client that raises on every call, at every attempt. -/
def failIx : IxEnv :=
  { addFail := fun _ => some .indexError, queryFail := fun _ => some .indexError }

/-- `RAGService.delete_document` (rag_service.py lines 212-241): get or
create the user's collection, collect the ids of the chunks whose metadata
`document_id` matches, delete them when there are any, and return `True`. -/
def deleteDocument (s : StoreState) (user_id document_id : Str) :
    Except Err Bool × StoreState :=
  let cs := getOrCreateCollection s user_id
  let matching := cs.1.items.filter
    (fun p => p.2.metadata.document_id = document_id)
  if matching = [] then (.ok true, cs.2)
  else
    let survivors := cs.1.items.filter
      (fun p => ¬ p.2.metadata.document_id = document_id)
    let coll := { cs.1 with items := survivors }
    (.ok true, ⟨assocSet (collectionName user_id) coll cs.2.collections⟩)

/-- `RAGService.get_document_count` (rag_service.py lines 243-265): the
number of distinct truthy `document_id` metadata values in the user's
collection (line 258 skips falsy ids, i.e. the empty string). -/
def getDocumentCount (s : StoreState) (user_id : Str) : Nat × StoreState :=
  let cs := getOrCreateCollection s user_id
  (((cs.1.items.map (fun p => p.2.metadata.document_id)).filter
      (fun d => d ≠ [])).dedup.length, cs.2)

/-- The chunks currently stored for a user (empty when the user has no
collection yet). -/
def chunksOf (s : StoreState) (uid : Str) : List (Str × ChunkRec) :=
  match assocGet (collectionName uid) s.collections with
  | some c => c.items
  | none => []

/-- The chunks currently stored for a user that belong to a document. -/
def chunksOfDoc (s : StoreState) (uid did : Str) : List (Str × ChunkRec) :=
  (chunksOf s uid).filter (fun p => p.2.metadata.document_id = did)

instance {ε α : Type} [DecidableEq ε] [DecidableEq α] : DecidableEq (Except ε α) :=
  fun x y =>
    match x, y with
    | .ok a, .ok b =>
      if h : a = b then .isTrue (by rw [h]) else .isFalse (by intro hh; cases hh; exact h rfl)
    | .error a, .error b =>
      if h : a = b then .isTrue (by rw [h]) else .isFalse (by intro hh; cases hh; exact h rfl)
    | .ok _, .error _ => .isFalse (by intro hh; cases hh)
    | .error _, .ok _ => .isFalse (by intro hh; cases hh)

theorem assocGet_set_eq {α : Type} (k : Str) (v : α) (l : List (Str × α)) :
    assocGet k (assocSet k v l) = some v := by
  induction l with
  | nil => simp [assocSet, assocGet]
  | cons p rest ih =>
    obtain ⟨k', v'⟩ := p
    by_cases h : k' = k
    · simp [assocSet, h, assocGet]
    · simp [assocSet, h, assocGet, ih]

theorem assocGet_set_ne {α : Type} {k k' : Str} (h : k' ≠ k) (v : α)
    (l : List (Str × α)) : assocGet k (assocSet k' v l) = assocGet k l := by
  induction l with
  | nil => simp [assocSet, assocGet, h]
  | cons p rest ih =>
    obtain ⟨k₀, v₀⟩ := p
    by_cases h₀ : k₀ = k'
    · simp [assocSet, h₀, assocGet, h]
    · simp [assocSet, h₀, assocGet, ih]

theorem assocSet_of_get_eq {α : Type} {k : Str} {v : α} :
    ∀ {l : List (Str × α)}, assocGet k l = some v → assocSet k v l = l := by
  intro l
  induction l with
  | nil => intro h; simp [assocGet] at h
  | cons p rest ih =>
    obtain ⟨k₀, v₀⟩ := p
    intro h
    by_cases h₀ : k₀ = k
    · simp [assocGet, h₀] at h
      simp [assocSet, h₀, h]
    · simp [assocGet, h₀] at h
      simp [assocSet, h₀, ih h]

theorem assocGet_some_mem {α : Type} {k : Str} {v : α} :
    ∀ {l : List (Str × α)}, assocGet k l = some v → (k, v) ∈ l := by
  intro l
  induction l with
  | nil => intro h; simp [assocGet] at h
  | cons p rest ih =>
    obtain ⟨k₀, v₀⟩ := p
    intro h
    by_cases h₀ : k₀ = k
    · simp [assocGet, h₀] at h
      simp [h₀, h]
    · simp [assocGet, h₀] at h
      exact List.mem_cons_of_mem _ (ih h)

theorem foldl_set_get_ne {α : Type} :
    ∀ (es : List (Str × α)) (l : List (Str × α)) (k : Str),
      (∀ e ∈ es, e.1 ≠ k) →
      assocGet k (es.foldl (fun its e => assocSet e.1 e.2 its) l) = assocGet k l := by
  intro es
  induction es with
  | nil => intro l k _; rfl
  | cons e rest ih =>
    intro l k h
    have h₁ : e.1 ≠ k := h e (List.mem_cons_self e rest)
    calc assocGet k ((e :: rest).foldl (fun its e => assocSet e.1 e.2 its) l)
        = assocGet k (rest.foldl (fun its e => assocSet e.1 e.2 its)
            (assocSet e.1 e.2 l)) := by simp [List.foldl_cons]
      _ = assocGet k (assocSet e.1 e.2 l) := ih _ k (fun x hx => h x (List.mem_cons_of_mem _ hx))
      _ = assocGet k l := assocGet_set_ne h₁ _ _

theorem foldl_set_get_mem {α : Type} :
    ∀ (es : List (Str × α)) (l : List (Str × α)) (k : Str) (v : α),
      (k, v) ∈ es → (es.map Prod.fst).Nodup →
      assocGet k (es.foldl (fun its e => assocSet e.1 e.2 its) l) = some v := by
  intro es
  induction es with
  | nil => intro l k v h _; simp at h
  | cons e rest ih =>
    intro l k v hmem hnodup
    rw [List.map_cons, List.nodup_cons] at hnodup
    rcases List.mem_cons.1 hmem with heq | hmem'
    · subst heq
      have hrest : ∀ x ∈ rest, x.1 ≠ k := by
        intro x hx hxk
        have hx' : x.1 ∈ rest.map Prod.fst := List.mem_map_of_mem Prod.fst hx
        rw [hxk] at hx'
        exact hnodup.1 hx'
      calc assocGet k (((k, v) :: rest).foldl (fun its e => assocSet e.1 e.2 its) l)
          = assocGet k (rest.foldl (fun its e => assocSet e.1 e.2 its)
              (assocSet k v l)) := by simp [List.foldl_cons]
        _ = assocGet k (assocSet k v l) := foldl_set_get_ne rest _ k hrest
        _ = some v := assocGet_set_eq k v l
    · calc assocGet k ((e :: rest).foldl (fun its e => assocSet e.1 e.2 its) l)
          = assocGet k (rest.foldl (fun its e => assocSet e.1 e.2 its)
              (assocSet e.1 e.2 l)) := by simp [List.foldl_cons]
        _ = some v := ih _ k v hmem' hnodup.2

theorem foldl_set_all_some {α : Type} :
    ∀ (es : List (Str × α)) (l : List (Str × α)),
      (∀ e ∈ es, assocGet e.1 l = some e.2) →
      es.foldl (fun its e => assocSet e.1 e.2 its) l = l := by
  intro es
  induction es with
  | nil => intro l _; rfl
  | cons e rest ih =>
    intro l h
    have h₁ : assocSet e.1 e.2 l = l :=
      assocSet_of_get_eq (h e (List.mem_cons_self e rest))
    calc (e :: rest).foldl (fun its e => assocSet e.1 e.2 its) l
        = rest.foldl (fun its e => assocSet e.1 e.2 its) (assocSet e.1 e.2 l) := by
          simp [List.foldl_cons]
      _ = rest.foldl (fun its e => assocSet e.1 e.2 its) l := by rw [h₁]
      _ = l := ih l (fun x hx => h x (List.mem_cons_of_mem _ hx))

theorem digitChar_toNat {d : Nat} (h : d < 10) : (digitChar d).toNat = 48 + d := by
  interval_cases d <;> rfl

theorem decVal_append_digit (s : Str) (c : Char) :
    decVal (s ++ [c]) = 10 * decVal s + (c.toNat - 48) := by
  simp [decVal, List.foldl_append]

theorem decVal_natToDigitsAux :
    ∀ (fuel n : Nat), n < fuel → decVal (natToDigitsAux fuel n) = n := by
  intro fuel
  induction fuel with
  | zero => intro n h; omega
  | succ f ih =>
    intro n hn
    by_cases h : n < 10
    · simp [natToDigitsAux, h, decVal, digitChar_toNat h]
    · have hdiv : n / 10 < n := Nat.div_lt_self (by omega) (by omega)
      have hf : n / 10 < f := by omega
      rw [natToDigitsAux, if_neg h, decVal_append_digit, ih _ hf,
        digitChar_toNat (Nat.mod_lt n (by omega))]
      omega

theorem decVal_natToDigits (n : Nat) : decVal (natToDigits n) = n :=
  decVal_natToDigitsAux (n + 1) n (Nat.lt_succ_self n)

theorem natToDigits_injective : Function.Injective natToDigits := by
  intro a b h
  have := congrArg decVal h
  rwa [decVal_natToDigits, decVal_natToDigits] at this

theorem mkChunkId_inj {d : Str} {i j : Nat} (h : mkChunkId d i = mkChunkId d j) :
    i = j := by
  unfold mkChunkId at h
  rw [List.append_assoc, List.append_assoc] at h
  have h₁ : "_chunk_".toList ++ natToDigits i = "_chunk_".toList ++ natToDigits j :=
    List.append_cancel_left h
  exact natToDigits_injective (List.append_cancel_left h₁)

theorem collectionName_inj {a b : Str} (h : collectionName a = collectionName b) :
    normalizeUserId a = normalizeUserId b :=
  List.append_cancel_left h

theorem getOrCreate_items (s : StoreState) (u : Str) :
    (getOrCreateCollection s u).1.items = chunksOf s u := by
  unfold getOrCreateCollection chunksOf
  cases h : assocGet (collectionName u) s.collections <;> simp [h]

theorem chunksOf_set_self (cols : List (Str × Collection)) (c : Collection) (v : Str) :
    chunksOf ⟨assocSet (collectionName v) c cols⟩ v = c.items := by
  unfold chunksOf
  rw [assocGet_set_eq]

theorem chunksOf_set_other {name v : Str} (cols : List (Str × Collection))
    (c : Collection) (h : name ≠ collectionName v) :
    chunksOf ⟨assocSet name c cols⟩ v = chunksOf ⟨cols⟩ v := by
  unfold chunksOf
  rw [assocGet_set_ne h]

theorem chunksOf_getOrCreate (s : StoreState) (u v : Str) :
    chunksOf (getOrCreateCollection s u).2 v = chunksOf s v := by
  unfold getOrCreateCollection
  cases h : assocGet (collectionName u) s.collections with
  | some c => simp only [h]
  | none =>
    simp only [h]
    by_cases hv : collectionName u = collectionName v
    · rw [hv, chunksOf_set_self]
      unfold chunksOf
      rw [← hv, h]
    · rw [chunksOf_set_other _ _ hv]

theorem chunkEntries_keys (u d : Str) (md : Option (List (Str × Str)))
    (chunks : List Str) (embs : List Emb) :
    (chunkEntries u d md chunks embs).map Prod.fst
      = (List.range chunks.length).map (mkChunkId d) := by
  simp [chunkEntries, List.map_map]

theorem chunkEntries_keys_nodup (u d : Str) (md : Option (List (Str × Str)))
    (chunks : List Str) (embs : List Emb) :
    ((chunkEntries u d md chunks embs).map Prod.fst).Nodup := by
  rw [chunkEntries_keys]
  exact (List.nodup_range _).map (fun a b h => mkChunkId_inj h)

theorem chunkEntries_mem (u d : Str) (md : Option (List (Str × Str)))
    (chunks : List Str) (embs : List Emb) {i : Nat} (hi : i < chunks.length) :
    (mkChunkId d i,
      ({ embedding := embs.getD i []
         document := chunks.getD i []
         metadata := buildMeta u d md i } : ChunkRec)) ∈ chunkEntries u d md chunks embs := by
  unfold chunkEntries
  exact List.mem_map_of_mem _ (List.mem_range.2 hi)

theorem addDocument_state_error {lenf : Str → Nat} {env : Env} {s : StoreState}
    {u d t : Str} {md : Option (List (Str × Str))} {e : Err}
    (h : (addDocument lenf env s u d t md).1 = .error e) :
    ∀ v, chunksOf (addDocument lenf env s u d t md).2 v = chunksOf s v := by
  intro v
  unfold addDocument at *
  by_cases hc : splitText lenf t = []
  · simp [hc]
  · cases hemb : env.embedDocuments 0 (splitText lenf t) with
    | error e' => simp [hc, hemb, chunksOf_getOrCreate]
    | ok embs => simp [hc, hemb] at h

theorem addDocument_chunksOf_other {lenf : Str → Nat} {env : Env} {s : StoreState}
    {u d t : Str} {md : Option (List (Str × Str))} {v : Str}
    (hv : collectionName v ≠ collectionName u) :
    chunksOf (addDocument lenf env s u d t md).2 v = chunksOf s v := by
  unfold addDocument
  by_cases hc : splitText lenf t = []
  · simp [hc]
  · cases hemb : env.embedDocuments 0 (splitText lenf t) with
    | error e' => simp [hc, hemb, chunksOf_getOrCreate]
    | ok embs =>
      simp only [if_neg hc, hemb]
      rw [chunksOf_set_other _ _ (fun hh => hv hh.symm)]
      exact chunksOf_getOrCreate s u v

theorem addDocument_chunksOf_self {lenf : Str → Nat} {env : Env} {s : StoreState}
    {u d t : Str} {md : Option (List (Str × Str))} {embs : List Emb}
    (hok : env.embedDocuments 0 (splitText lenf t) = .ok embs)
    (hne : splitText lenf t ≠ []) :
    chunksOf (addDocument lenf env s u d t md).2 u =
      (chunkEntries u d md (splitText lenf t) embs).foldl
        (fun its e => assocSet e.1 e.2 its) (chunksOf s u) := by
  unfold addDocument
  simp only [if_neg hne, hok]
  have h₁ := chunksOf_set_self (getOrCreateCollection s u).2.collections
    (collAdd (getOrCreateCollection s u).1 (chunkEntries u d md (splitText lenf t) embs)) u
  rw [h₁]
  simp [collAdd, getOrCreate_items]

theorem collQuery_subset (dist : Emb → Emb → Int) (c : Collection) (qe : Emb)
    (n : Nat) (f : Option MetaFilter) :
    ∀ p ∈ collQuery dist c qe n f, p ∈ c.items ∧ matchesFilter f p.2.metadata := by
  intro p hp
  unfold collQuery at hp
  have h₁ := List.take_subset n _ hp
  have h₂ := (List.perm_insertionSort _ _).mem_iff.1 h₁
  exact ⟨List.mem_of_mem_filter h₂, by simpa using List.of_mem_filter h₂⟩

theorem collQuery_length_none (dist : Emb → Emb → Int) (c : Collection) (qe : Emb)
    (n : Nat) : (collQuery dist c qe n none).length = min n c.items.length := by
  unfold collQuery
  have hfil : c.items.filter (fun p => matchesFilter none p.2.metadata) = c.items :=
    List.filter_eq_self.2 (fun a _ => rfl)
  rw [List.length_take, (List.perm_insertionSort _ _).length_eq, hfil]

theorem collQuery_sorted (dist : Emb → Emb → Int) (c : Collection) (qe : Emb)
    (n : Nat) (f : Option MetaFilter) :
    List.Sorted (· ≤ ·)
      ((collQuery dist c qe n f).map (fun p => dist qe p.2.embedding)) := by
  unfold collQuery
  have hs : List.Sorted (fun p q : Str × ChunkRec =>
      dist qe p.2.embedding ≤ dist qe q.2.embedding)
      (List.insertionSort (fun p q => dist qe p.2.embedding ≤ dist qe q.2.embedding)
        (c.items.filter (fun p => matchesFilter f p.2.metadata))) := by
    haveI : IsTotal (Str × ChunkRec)
        (fun p q => dist qe p.2.embedding ≤ dist qe q.2.embedding) :=
      ⟨fun a b => le_total _ _⟩
    haveI : IsTrans (Str × ChunkRec)
        (fun p q => dist qe p.2.embedding ≤ dist qe q.2.embedding) :=
      ⟨fun a b c hab hbc => le_trans hab hbc⟩
    exact List.sorted_insertionSort _ _
  have ht := hs.sublist (List.take_sublist n _)
  exact List.pairwise_map.2 ht

theorem collQuery_congr {dist : Emb → Emb → Int} {c c' : Collection} {qe : Emb}
    {n : Nat} {f : Option MetaFilter} (h : c.items = c'.items) :
    collQuery dist c qe n f = collQuery dist c' qe n f := by
  unfold collQuery
  rw [h]

theorem collQuery_mem_of_mem {dist : Emb → Emb → Int} {c : Collection} {qe : Emb}
    {n : Nat} {p : Str × ChunkRec} (hmem : p ∈ c.items)
    (hn : c.items.length ≤ n) : p ∈ collQuery dist c qe n none := by
  unfold collQuery
  have hfil : c.items.filter (fun p => matchesFilter none p.2.metadata) = c.items :=
    List.filter_eq_self.2 (fun a _ => rfl)
  rw [hfil]
  have hlen : (List.insertionSort
      (fun p q => dist qe p.2.embedding ≤ dist qe q.2.embedding) c.items).length
      = c.items.length := (List.perm_insertionSort _ _).length_eq
  rw [List.take_of_length_le (by rw [hlen]; exact hn)]
  exact (List.perm_insertionSort _ _).mem_iff.2 hmem

theorem query_fst_congr {env : Env} {s s' : StoreState} {u q : Str} {k : Nat}
    {f : Option MetaFilter} (h : chunksOf s u = chunksOf s' u) :
    (query env s u q k f).1 = (query env s' u q k f).1 := by
  unfold query
  cases hq : env.embedQuery 0 q with
  | error e => simp [hq]
  | ok qe =>
    simp only [hq]
    have hitems : (getOrCreateCollection s u).1.items
        = (getOrCreateCollection s' u).1.items := by
      rw [getOrCreate_items s u, getOrCreate_items s' u, h]
    rw [collQuery_congr hitems]

/-- A concrete deterministic embedding environment for witnesses: constant
embeddings and distance 0. -/
def constEnv : Env :=
  { embedDocuments := fun _ ts => .ok (ts.map fun _ => [0])
    embedQuery := fun _ _ => .ok [0]
    dist := fun _ _ => 0 }

/-- A concrete environment whose embedding provider fails on every attempt. -/
def failEnv : Env :=
  { embedDocuments := fun _ _ => .error .embeddingProviderError
    embedQuery := fun _ _ => .error .embeddingProviderError
    dist := fun _ _ => 0 }

/-- C1 (amended): collection resolution is deterministic from the user id,
and isolation holds between every two users whose normalized ids
(`'-' → '_'`) differ — ingesting under `a` never changes what `query`
returns for `b`.  (The normalization is not injective, so the original
claim's "distinct user_ids never resolve to the same collection" fails; see
the counterexample.) -/
theorem tenant_isolation_normalized (lenf : Str → Nat) (env : Env)
    (s : StoreState) (a b d t q : Str) (md : Option (List (Str × Str)))
    (k : Nat) (f : Option MetaFilter)
    (h : normalizeUserId a ≠ normalizeUserId b) :
    (query env (addDocument lenf env s a d t md).2 b q k f).1 =
      (query env s b q k f).1 := by
  have hcoll : collectionName b ≠ collectionName a := fun hc =>
    h (collectionName_inj hc).symm
  exact query_fst_congr (addDocument_chunksOf_other hcoll)

/-- C1 is false as stated: the distinct user ids `"a-b"` and `"a_b"`
normalize to the same collection name, and a chunk ingested under `"a-b"`
is returned by a query of `"a_b"`. -/
theorem tenant_isolation_collision :
    ("a-b".toList ≠ "a_b".toList) ∧
    collectionName "a-b".toList = collectionName "a_b".toList ∧
    (query constEnv
        (addDocument fallbackTokenCount constEnv ⟨[]⟩ "a-b".toList "d1".toList
          "hello".toList none).2
        "a_b".toList "q".toList 5 none).1 =
      .ok [{ text := "hello".toList
             metadata := { document_id := "d1".toList, user_id := "a-b".toList
                           chunk_index := 0, extra := [] }
             distance := 0, document_id := "d1".toList }] :=
  ⟨by decide, by decide, by decide⟩

/-- Witness for `tenant_isolation_normalized` at users `"u1"` and `"u2"`. -/
theorem tenant_isolation_normalized_witness :
    normalizeUserId "u1".toList ≠ normalizeUserId "u2".toList ∧
    (query constEnv
        (addDocument fallbackTokenCount constEnv ⟨[]⟩ "u1".toList "d1".toList
          "hello".toList none).2
        "u2".toList "q".toList 5 none).1 =
      (query constEnv ⟨[]⟩ "u2".toList "q".toList 5 none).1 :=
  ⟨by decide,
    tenant_isolation_normalized fallbackTokenCount constEnv ⟨[]⟩ "u1".toList
      "u2".toList "d1".toList "hello".toList "q".toList none 5 none (by decide)⟩

/-- C2: all-or-nothing ingestion — within one `add_document` call the single
embedding-provider call covers every chunk and happens before the single
index write; if it fails, the call returns that error and no user's stored
chunks change. -/
theorem ingest_all_or_nothing (lenf : Str → Nat) (env : Env) (s : StoreState)
    (u d t : Str) (md : Option (List (Str × Str))) (e : Err)
    (hfail : env.embedDocuments 0 (splitText lenf t) = .error e) :
    (splitText lenf t ≠ [] → (addDocument lenf env s u d t md).1 = .error e) ∧
    ∀ v, chunksOf (addDocument lenf env s u d t md).2 v = chunksOf s v := by
  constructor
  · intro hne
    unfold addDocument
    simp [hne, hfail]
  · intro v
    by_cases hne : splitText lenf t = []
    · unfold addDocument
      simp [hne]
    · refine @addDocument_state_error lenf env s u d t md e ?_ v
      unfold addDocument
      simp [hne, hfail]

/-- Witness for `ingest_all_or_nothing`: a failing provider leaves the empty
store unchanged and surfaces the provider error. -/
theorem ingest_all_or_nothing_witness :
    (addDocument fallbackTokenCount failEnv ⟨[]⟩ "u1".toList "d1".toList
        "hello".toList none).1 = .error .embeddingProviderError ∧
    chunksOf (addDocument fallbackTokenCount failEnv ⟨[]⟩ "u1".toList "d1".toList
        "hello".toList none).2 "u1".toList =
      chunksOf ⟨[]⟩ "u1".toList := by
  have h := ingest_all_or_nothing fallbackTokenCount failEnv ⟨[]⟩ "u1".toList
    "d1".toList "hello".toList none .embeddingProviderError rfl
  exact ⟨h.1 (by decide), h.2 "u1".toList⟩

/-- With a non-raising index client, `addDocumentIx` coincides with
`addDocument`. -/
theorem addDocumentIx_refines (lenf : Str → Nat) (env : Env) (ix : IxEnv)
    (s : StoreState) (u d t : Str) (md : Option (List (Str × Str)))
    (h : ix.addFail 0 = none) :
    addDocumentIx lenf env ix s u d t md = addDocument lenf env s u d t md := by
  unfold addDocumentIx addDocument
  cases hemb : env.embedDocuments 0 (splitText lenf t) <;> simp [h, hemb]

/-- With a non-raising index client, `queryIx` coincides with `query`. -/
theorem queryIx_refines (env : Env) (ix : IxEnv) (s : StoreState) (u q : Str)
    (k : Nat) (f : Option MetaFilter) (h : ix.queryFail 0 = none) :
    queryIx env ix s u q k f = query env s u q k f := by
  unfold queryIx query
  cases hemb : env.embedQuery 0 q <;> simp [h, hemb]

/-- C5 (amended): whenever the embedding provider or the vector index fails
during `add_document` or `query`, the error propagates to the caller
unchanged — the original exception is re-raised, with no
`RetrievalUnavailable` wrapper (none exists in the repository).  All four
failure paths are covered: provider failure and index-add failure in
`add_document`, provider failure and index-query failure in `query`.  And
the service performs no internal retry of the embedding or index calls: it
consults only attempt 0 of each, so its behavior is unchanged under any
modification of the provider's and the index client's answers on later
attempts. -/
theorem error_propagation_no_retry (lenf : Str → Nat) (env : Env) (ix : IxEnv)
    (s : StoreState) (u d t q : Str) (md : Option (List (Str × Str))) (k : Nat)
    (f : Option MetaFilter) :
    (∀ e, env.embedDocuments 0 (splitText lenf t) = .error e →
      splitText lenf t ≠ [] →
      (addDocumentIx lenf env ix s u d t md).1 = .error e) ∧
    (∀ embs e, env.embedDocuments 0 (splitText lenf t) = .ok embs →
      ix.addFail 0 = some e → splitText lenf t ≠ [] →
      (addDocumentIx lenf env ix s u d t md).1 = .error e) ∧
    (∀ e, env.embedQuery 0 q = .error e →
      (queryIx env ix s u q k f).1 = .error e) ∧
    (∀ qe e, env.embedQuery 0 q = .ok qe → ix.queryFail 0 = some e →
      (queryIx env ix s u q k f).1 = .error e) ∧
    (∀ (env' : Env) (ix' : IxEnv),
      env'.embedDocuments 0 = env.embedDocuments 0 →
      env'.embedQuery 0 = env.embedQuery 0 →
      env'.dist = env.dist →
      ix'.addFail 0 = ix.addFail 0 →
      ix'.queryFail 0 = ix.queryFail 0 →
      addDocumentIx lenf env' ix' s u d t md = addDocumentIx lenf env ix s u d t md ∧
      queryIx env' ix' s u q k f = queryIx env ix s u q k f) := by
  refine ⟨?_, ?_, ?_, ?_, ?_⟩
  · intro e he hne
    unfold addDocumentIx
    simp [hne, he]
  · intro embs e hok hfl hne
    unfold addDocumentIx
    simp [hne, hok, hfl]
  · intro e he
    unfold queryIx
    simp [he]
  · intro qe e hok hfl
    unfold queryIx
    simp [hok, hfl]
  · intro env' ix' hdcs hqry hdist hadd hqf
    constructor
    · unfold addDocumentIx
      rw [hdcs, hadd]
    · unfold queryIx
      rw [hqry, hdist, hqf]

/-- C5 is false as stated: when the embedding provider fails, `add_document`
re-raises the provider's own error, which is not `RetrievalUnavailable`. -/
theorem error_not_retrieval_unavailable :
    (addDocument fallbackTokenCount failEnv ⟨[]⟩ "u1".toList "d1".toList
        "hi there".toList none).1 = .error .embeddingProviderError ∧
    Err.embeddingProviderError ≠ Err.retrievalUnavailable :=
  ⟨by decide, by decide⟩

/-- Witness for `error_propagation_no_retry`: the always-failing provider's
error surfaces from both operations, and the always-raising index client's
error surfaces from both operations when the provider succeeds. -/
theorem error_propagation_no_retry_witness :
    (addDocumentIx fallbackTokenCount failEnv okIx ⟨[]⟩ "u2".toList "d2".toList
        "some text".toList none).1 = .error .embeddingProviderError ∧
    (addDocumentIx fallbackTokenCount constEnv failIx ⟨[]⟩ "u2".toList "d2".toList
        "some text".toList none).1 = .error .indexError ∧
    (queryIx failEnv okIx ⟨[]⟩ "u2".toList "q".toList 5 none).1 =
      .error .embeddingProviderError ∧
    (queryIx constEnv failIx ⟨[]⟩ "u2".toList "q".toList 5 none).1 =
      .error .indexError := by
  refine ⟨(error_propagation_no_retry fallbackTokenCount failEnv okIx ⟨[]⟩
      "u2".toList "d2".toList "some text".toList "q".toList none 5 none).1
      .embeddingProviderError rfl (by decide),
    (error_propagation_no_retry fallbackTokenCount constEnv failIx ⟨[]⟩
      "u2".toList "d2".toList "some text".toList "q".toList none 5 none).2.1
      _ .indexError rfl rfl (by decide),
    (error_propagation_no_retry fallbackTokenCount failEnv okIx ⟨[]⟩
      "u2".toList "d2".toList "some text".toList "q".toList none 5 none).2.2.1
      .embeddingProviderError rfl,
    (error_propagation_no_retry fallbackTokenCount constEnv failIx ⟨[]⟩
      "u2".toList "d2".toList "some text".toList "q".toList none 5 none).2.2.2.1
      [0] .indexError rfl rfl⟩

/-- C3: top-k contract — with a successful query embedding, `query` returns
`.ok` with exactly `min k count` results (so at most `k`, fewer iff the
user's collection holds fewer than `k` chunks), the empty list when the
collection is empty or absent, and the list is sorted by non-decreasing
distance. -/
theorem query_top_k_contract (env : Env) (s : StoreState) (u q : Str) (k : Nat)
    (qe : Emb) (hk : 0 < k) (hq : env.embedQuery 0 q = .ok qe) :
    ∃ res, (query env s u q k none).1 = .ok res ∧
      res.length = min k (chunksOf s u).length ∧
      res.length ≤ k ∧
      (res.length < k ↔ (chunksOf s u).length < k) ∧
      (chunksOf s u = [] → res = []) ∧
      List.Sorted (· ≤ ·) (res.map QueryResult.distance) := by
  refine ⟨(collQuery env.dist (getOrCreateCollection s u).1 qe k none).map
    (formatRow env.dist qe), ?_, ?_, ?_, ?_, ?_, ?_⟩
  · unfold query
    simp [hq]
  · rw [List.length_map, collQuery_length_none, getOrCreate_items]
  · rw [List.length_map, collQuery_length_none]
    exact min_le_left _ _
  · rw [List.length_map, collQuery_length_none, getOrCreate_items]
    omega
  · intro hempty
    have h0 : (collQuery env.dist (getOrCreateCollection s u).1 qe k none).length = 0 := by
      rw [collQuery_length_none, getOrCreate_items, hempty]
      simp
    rw [List.eq_nil_of_length_eq_zero h0]
    rfl
  · have hmm : ((collQuery env.dist (getOrCreateCollection s u).1 qe k none).map
        (formatRow env.dist qe)).map QueryResult.distance
        = (collQuery env.dist (getOrCreateCollection s u).1 qe k none).map
            (fun p => env.dist qe p.2.embedding) := by
      rw [List.map_map]
      rfl
    rw [hmm]
    exact collQuery_sorted env.dist _ qe k none

/-- Witness for `query_top_k_contract`: a store holding exactly two chunks
for `"u1"` queried with `top_k = 3` returns exactly two sorted results. -/
theorem query_top_k_contract_witness :
    0 < 3 ∧
    (∃ res, (query constEnv
        (addDocument fallbackTokenCount constEnv
          (addDocument fallbackTokenCount constEnv ⟨[]⟩ "u1".toList "d1".toList
            "hello".toList none).2
          "u1".toList "d2".toList "world".toList none).2
        "u1".toList "pricing".toList 3 none).1 = .ok res ∧
      res.length = min 3 (chunksOf
        (addDocument fallbackTokenCount constEnv
          (addDocument fallbackTokenCount constEnv ⟨[]⟩ "u1".toList "d1".toList
            "hello".toList none).2
          "u1".toList "d2".toList "world".toList none).2 "u1".toList).length ∧
      res.length ≤ 3 ∧
      (res.length < 3 ↔ (chunksOf
        (addDocument fallbackTokenCount constEnv
          (addDocument fallbackTokenCount constEnv ⟨[]⟩ "u1".toList "d1".toList
            "hello".toList none).2
          "u1".toList "d2".toList "world".toList none).2 "u1".toList).length < 3) ∧
      (chunksOf
        (addDocument fallbackTokenCount constEnv
          (addDocument fallbackTokenCount constEnv ⟨[]⟩ "u1".toList "d1".toList
            "hello".toList none).2
          "u1".toList "d2".toList "world".toList none).2 "u1".toList = [] → res = []) ∧
      List.Sorted (· ≤ ·) (res.map QueryResult.distance)) :=
  ⟨by decide,
    query_top_k_contract constEnv _ "u1".toList "pricing".toList 3 [0]
      (by decide) rfl⟩

theorem assocSet_append_of_get_none {α : Type} {k : Str} {v : α} :
    ∀ {l : List (Str × α)}, assocGet k l = none → assocSet k v l = l ++ [(k, v)] := by
  intro l
  induction l with
  | nil => intro _; rfl
  | cons p rest ih =>
    obtain ⟨k₀, v₀⟩ := p
    intro h
    by_cases h₀ : k₀ = k
    · simp [assocGet, h₀] at h
    · simp [assocGet, h₀] at h
      simp [assocSet, h₀, ih h]

theorem assocGet_append_of_get_none {α : Type} {k : Str} {l₂ : List (Str × α)} :
    ∀ {l : List (Str × α)}, assocGet k l = none →
      assocGet k (l ++ l₂) = assocGet k l₂ := by
  intro l
  induction l with
  | nil => intro _; rfl
  | cons p rest ih =>
    obtain ⟨k₀, v₀⟩ := p
    intro h
    by_cases h₀ : k₀ = k
    · simp [assocGet, h₀] at h
    · simp [assocGet, h₀] at h ⊢
      exact ih h

theorem foldl_set_append {α : Type} :
    ∀ (es : List (Str × α)) (l : List (Str × α)),
      (∀ e ∈ es, assocGet e.1 l = none) → ((es.map Prod.fst).Nodup) →
      es.foldl (fun its e => assocSet e.1 e.2 its) l = l ++ es := by
  intro es
  induction es with
  | nil => intro l _ _; simp
  | cons e rest ih =>
    intro l h hnodup
    rw [List.map_cons, List.nodup_cons] at hnodup
    have h₁ : assocSet e.1 e.2 l = l ++ [(e.1, e.2)] :=
      assocSet_append_of_get_none (h e (List.mem_cons_self e rest))
    have h₂ : ∀ x ∈ rest, assocGet x.1 (l ++ [(e.1, e.2)]) = none := by
      intro x hx
      have hxe : x.1 ≠ e.1 := by
        intro hh
        exact hnodup.1 (hh ▸ List.mem_map_of_mem Prod.fst hx)
      rw [assocGet_append_of_get_none (h x (List.mem_cons_of_mem _ hx))]
      simp [assocGet]
      exact fun hh => hxe hh.symm
    calc (e :: rest).foldl (fun its e => assocSet e.1 e.2 its) l
        = rest.foldl (fun its e => assocSet e.1 e.2 its) (assocSet e.1 e.2 l) := by
          simp [List.foldl_cons]
      _ = rest.foldl (fun its e => assocSet e.1 e.2 its) (l ++ [(e.1, e.2)]) := by rw [h₁]
      _ = (l ++ [(e.1, e.2)]) ++ rest := ih _ h₂ hnodup.2
      _ = l ++ (e :: rest) := by simp

theorem assocSet_idem {α : Type} (k : Str) (v : α) (l : List (Str × α)) :
    assocSet k v (assocSet k v l) = assocSet k v l :=
  assocSet_of_get_eq (assocGet_set_eq k v l)

theorem getOrCreate_idem (s : StoreState) (u : Str) :
    getOrCreateCollection (getOrCreateCollection s u).2 u
      = ((getOrCreateCollection s u).1, (getOrCreateCollection s u).2) := by
  unfold getOrCreateCollection
  cases h : assocGet (collectionName u) s.collections with
  | some c => simp [h]
  | none => simp [h, assocGet_set_eq]

theorem range_map_getD {α : Type} (l : List α) (dflt : α) :
    (List.range l.length).map (fun i => l.getD i dflt) = l := by
  apply List.ext_getElem
  · simp
  · intro i h1 h2
    simp [List.getD, List.getElem?_eq_getElem h2]

theorem chunkEntries_doc_id (u d : Str) (md : Option (List (Str × Str)))
    (chunks : List Str) (embs : List Emb) :
    ∀ p ∈ chunkEntries u d md chunks embs, p.2.metadata.document_id = d := by
  intro p hp
  unfold chunkEntries at hp
  obtain ⟨i, hi, rfl⟩ := List.mem_map.1 hp
  rfl

theorem chunkEntries_map_document (u d : Str) (md : Option (List (Str × Str)))
    (chunks : List Str) (embs : List Emb) :
    (chunkEntries u d md chunks embs).map (fun p => p.2.document) = chunks := by
  unfold chunkEntries
  rw [List.map_map]
  exact range_map_getD chunks []

theorem chunkEntries_length (u d : Str) (md : Option (List (Str × Str)))
    (chunks : List Str) (embs : List Emb) :
    (chunkEntries u d md chunks embs).length = chunks.length := by
  unfold chunkEntries
  simp

theorem addDocument_ok_eq {lenf : Str → Nat} {env : Env} {s : StoreState}
    {u d t : Str} {md : Option (List (Str × Str))} {embs : List Emb}
    (hemb : env.embedDocuments 0 (splitText lenf t) = .ok embs)
    (hc : splitText lenf t ≠ []) :
    addDocument lenf env s u d t md
      = (.ok (splitText lenf t).length,
         ⟨assocSet (collectionName u)
           (collAdd (getOrCreateCollection s u).1
             (chunkEntries u d md (splitText lenf t) embs))
           (getOrCreateCollection s u).2.collections⟩) := by
  unfold addDocument
  simp [hc, hemb]

theorem getOrCreate_of_set (cols : List (Str × Collection)) (c : Collection) (u : Str) :
    getOrCreateCollection ⟨assocSet (collectionName u) c cols⟩ u
      = (c, ⟨assocSet (collectionName u) c cols⟩) := by
  unfold getOrCreateCollection
  simp [assocGet_set_eq]

theorem collAdd_idem (c : Collection) (es : List (Str × ChunkRec))
    (hnodup : (es.map Prod.fst).Nodup) : collAdd (collAdd c es) es = collAdd c es := by
  unfold collAdd
  congr 1
  apply foldl_set_all_some
  intro e he
  exact foldl_set_get_mem es c.items e.1 e.2 (by rw [Prod.mk.eta]; exact he) hnodup

theorem filter_eq_singleton_of_nodup {α : Type} [DecidableEq α] :
    ∀ {l : List α} {a : α}, l.Nodup → a ∈ l → l.filter (fun x => x = a) = [a] := by
  intro l
  induction l with
  | nil => intro a _ h; simp at h
  | cons b rest ih =>
    intro a hnd hmem
    rw [List.nodup_cons] at hnd
    rcases List.mem_cons.1 hmem with rfl | hm
    · have hrest : rest.filter (fun x => x = a) = [] := by
        apply List.filter_eq_nil.2
        intro x hx
        simp only [decide_eq_true_eq]
        intro hxa
        exact hnd.1 (hxa ▸ hx)
      simp [List.filter_cons, hrest]
    · have hba : ¬(b = a) := fun hh => hnd.1 (hh ▸ hm)
      simp [List.filter_cons, hba, ih hnd.2 hm]

/-- C4 (amended): re-ingestion idempotence — repeating the same
`add_document` call returns the same value and leaves the store unchanged
(chunk ids are the deterministic `document_id + "_chunk_" + ordinal`, so the
second call overwrites each chunk with itself); and for a successful
ingestion of a document whose id is non-empty and whose chunk ids are fresh
in the collection, the chunks stored for that document are exactly one
chunking of the text and the document contributes exactly one distinct id
to the count `get_document_count` measures.  (As stated the claim fails for
`document_id = ""`, which line 258's truthiness test excludes from the
count; see the counterexample.) -/
theorem reingest_idempotent (lenf : Str → Nat) (env : Env) (s : StoreState)
    (u d t : Str) (md : Option (List (Str × Str))) :
    addDocument lenf env (addDocument lenf env s u d t md).2 u d t md
        = addDocument lenf env s u d t md ∧
    (∀ embs, env.embedDocuments 0 (splitText lenf t) = .ok embs →
      splitText lenf t ≠ [] → d ≠ [] →
      (∀ i, i < (splitText lenf t).length →
        assocGet (mkChunkId d i) (chunksOf s u) = none) →
      chunksOfDoc s u d = [] →
      ((chunksOfDoc (addDocument lenf env s u d t md).2 u d).map
          (fun p => p.2.document) = splitText lenf t ∧
        (((chunksOf (addDocument lenf env s u d t md).2 u).map
            (fun p => p.2.metadata.document_id)).filter
              (fun x => x ≠ [])).dedup.filter (fun x => x = d) = [d])) := by
  constructor
  · by_cases hc : splitText lenf t = []
    · have h2 : (addDocument lenf env s u d t md).2 = s := by
        unfold addDocument
        simp [hc]
      rw [h2]
    · cases hemb : env.embedDocuments 0 (splitText lenf t) with
      | error e =>
        have hfst : addDocument lenf env s u d t md
            = (.error e, (getOrCreateCollection s u).2) := by
          unfold addDocument
          simp [hc, hemb]
        rw [hfst]
        conv_lhs => unfold addDocument
        simp only [if_neg hc, hemb]
        rw [getOrCreate_idem]
      | ok embs =>
        rw [addDocument_ok_eq hemb hc, addDocument_ok_eq hemb hc,
          getOrCreate_of_set,
          collAdd_idem _ _ (chunkEntries_keys_nodup u d md (splitText lenf t) embs),
          assocSet_idem]
  · intro embs hemb hc hd hfresh hpre
    have hbase : (getOrCreateCollection s u).1.items = chunksOf s u :=
      getOrCreate_items s u
    have hfresh' : ∀ e ∈ chunkEntries u d md (splitText lenf t) embs,
        assocGet e.1 (chunksOf s u) = none := by
      intro e he
      unfold chunkEntries at he
      obtain ⟨i, hi, rfl⟩ := List.mem_map.1 he
      exact hfresh i (List.mem_range.1 hi)
    have hchunks : chunksOf (addDocument lenf env s u d t md).2 u
        = chunksOf s u ++ chunkEntries u d md (splitText lenf t) embs := by
      rw [addDocument_chunksOf_self hemb hc]
      exact foldl_set_append _ _ hfresh'
        (chunkEntries_keys_nodup u d md (splitText lenf t) embs)
    have hfilE : (chunkEntries u d md (splitText lenf t) embs).filter
        (fun p => p.2.metadata.document_id = d)
        = chunkEntries u d md (splitText lenf t) embs := by
      apply List.filter_eq_self.2
      intro p hp
      simp [chunkEntries_doc_id u d md (splitText lenf t) embs p hp]
    constructor
    · unfold chunksOfDoc
      rw [hchunks, List.filter_append]
      unfold chunksOfDoc at hpre
      rw [hpre, hfilE, List.nil_append]
      exact chunkEntries_map_document u d md (splitText lenf t) embs
    · have hne : chunkEntries u d md (splitText lenf t) embs ≠ [] := by
        intro hh
        have := chunkEntries_length u d md (splitText lenf t) embs
        rw [hh] at this
        exact hc (List.eq_nil_of_length_eq_zero this.symm)
      obtain ⟨p, hp⟩ := List.exists_mem_of_ne_nil _ hne
      have hdp : p.2.metadata.document_id = d :=
        chunkEntries_doc_id u d md (splitText lenf t) embs p hp
      have hmem : d ∈ ((chunksOf (addDocument lenf env s u d t md).2 u).map
          (fun p => p.2.metadata.document_id)).filter (fun x => x ≠ []) := by
        apply List.mem_filter.2
        constructor
        · rw [hchunks, List.map_append]
          exact List.mem_append.2 (Or.inr (List.mem_map.2 ⟨p, hp, hdp⟩))
        · simpa using hd
      exact filter_eq_singleton_of_nodup (List.nodup_dedup _) (List.mem_dedup.2 hmem)

/-- C4 is false as stated at `document_id = ""`: ingesting the same
non-empty text twice under the empty document id stores its chunk, yet
`get_document_count` reports 0 for the user (line 258 skips falsy ids), not
counting the document once. -/
theorem reingest_count_counterexample :
    (chunksOf
        (addDocument fallbackTokenCount constEnv
          (addDocument fallbackTokenCount constEnv ⟨[]⟩ "u1".toList []
            "hello".toList none).2
          "u1".toList [] "hello".toList none).2 "u1".toList).length = 1 ∧
    (getDocumentCount
        (addDocument fallbackTokenCount constEnv
          (addDocument fallbackTokenCount constEnv ⟨[]⟩ "u1".toList []
            "hello".toList none).2
          "u1".toList [] "hello".toList none).2 "u1".toList).1 = 0 ∧
    (0 : Nat) ≠ 1 :=
  ⟨by decide, by decide, by decide⟩

/-- Witness for `reingest_idempotent` at a concrete ingestion. -/
theorem reingest_idempotent_witness :
    (addDocument fallbackTokenCount constEnv
        (addDocument fallbackTokenCount constEnv ⟨[]⟩ "u1".toList "d1".toList
          "hello".toList none).2
        "u1".toList "d1".toList "hello".toList none
      = addDocument fallbackTokenCount constEnv ⟨[]⟩ "u1".toList "d1".toList
          "hello".toList none) ∧
    ((chunksOfDoc (addDocument fallbackTokenCount constEnv ⟨[]⟩ "u1".toList
          "d1".toList "hello".toList none).2 "u1".toList "d1".toList).map
        (fun p => p.2.document) = splitText fallbackTokenCount "hello".toList ∧
      (((chunksOf (addDocument fallbackTokenCount constEnv ⟨[]⟩ "u1".toList
            "d1".toList "hello".toList none).2 "u1".toList).map
          (fun p => p.2.metadata.document_id)).filter
            (fun x => x ≠ [])).dedup.filter (fun x => x = "d1".toList)
        = ["d1".toList]) := by
  have h := reingest_idempotent fallbackTokenCount constEnv ⟨[]⟩ "u1".toList
    "d1".toList "hello".toList none
  exact ⟨h.1, h.2 [[0]] (by decide) (by decide) (by decide)
    (fun i _ => by cases i <;> rfl) (by decide)⟩

theorem query_results_from_chunks {env : Env} {s : StoreState} {u q : Str}
    {k : Nat} {f : Option MetaFilter} {res : List QueryResult}
    (h : (query env s u q k f).1 = .ok res) :
    ∀ x ∈ res, ∃ p ∈ chunksOf s u, x = formatRow env.dist ((env.embedQuery 0 q).toOption.getD []) p := by
  unfold query at h
  cases hq : env.embedQuery 0 q with
  | error e => rw [hq] at h; cases h
  | ok qe =>
    rw [hq] at h
    simp only [Except.ok.injEq] at h
    subst h
    intro x hx
    obtain ⟨p, hp, rfl⟩ := List.mem_map.1 hx
    have hmem := (collQuery_subset env.dist (getOrCreateCollection s u).1 qe k f p hp).1
    rw [getOrCreate_items] at hmem
    exact ⟨p, hmem, rfl⟩

/-- C7: deletion completeness and idempotence — `delete_document` returns
`True`, afterwards the user's collection holds exactly the chunks of other
documents (in their original order), hence no chunk of the deleted document,
a delete with no matching chunk leaves the chunk list unchanged, and no
subsequent query for that user returns a chunk whose metadata `document_id`
is the deleted one. -/
theorem delete_document_complete (env : Env) (s : StoreState) (u d q : Str)
    (k : Nat) (f : Option MetaFilter) :
    (deleteDocument s u d).1 = .ok true ∧
    chunksOf (deleteDocument s u d).2 u =
      (chunksOf s u).filter (fun p => ¬ p.2.metadata.document_id = d) ∧
    chunksOfDoc (deleteDocument s u d).2 u d = [] ∧
    (chunksOfDoc s u d = [] → chunksOf (deleteDocument s u d).2 u = chunksOf s u) ∧
    (∀ res, (query env (deleteDocument s u d).2 u q k f).1 = .ok res →
      ∀ x ∈ res, x.metadata.document_id ≠ d) := by
  have hmatch : (getOrCreateCollection s u).1.items.filter
      (fun p => p.2.metadata.document_id = d) = chunksOfDoc s u d := by
    unfold chunksOfDoc
    rw [getOrCreate_items]
  have hstate : chunksOf (deleteDocument s u d).2 u =
      (chunksOf s u).filter (fun p => ¬ p.2.metadata.document_id = d) := by
    unfold deleteDocument
    by_cases hm : (getOrCreateCollection s u).1.items.filter
        (fun p => p.2.metadata.document_id = d) = []
    · simp only [hm, if_pos]
      rw [chunksOf_getOrCreate]
      have hall : ∀ p ∈ chunksOf s u, ¬ p.2.metadata.document_id = d := by
        rw [hmatch] at hm
        unfold chunksOfDoc at hm
        intro p hp hpd
        have : p ∈ (chunksOf s u).filter (fun p => p.2.metadata.document_id = d) :=
          List.mem_filter.2 ⟨hp, by simpa using hpd⟩
        rw [hm] at this
        cases this
      exact (List.filter_eq_self.2 (fun p hp => by simpa using hall p hp)).symm
    · simp only [hm, if_neg, ite_false]
      rw [chunksOf_set_self]
      rw [getOrCreate_items]
  refine ⟨?_, hstate, ?_, ?_, ?_⟩
  · unfold deleteDocument
    by_cases hm : (getOrCreateCollection s u).1.items.filter
        (fun p => p.2.metadata.document_id = d) = [] <;> simp [hm]
  · unfold chunksOfDoc
    rw [hstate]
    apply List.filter_eq_nil_iff.2
    intro p hp
    have := List.of_mem_filter hp
    simpa using this
  · intro hpre
    rw [hstate]
    apply List.filter_eq_self.2
    intro p hp
    unfold chunksOfDoc at hpre
    have hnd : ¬ p.2.metadata.document_id = d := by
      intro hpd
      have hmem2 : p ∈ (chunksOf s u).filter
          (fun p => p.2.metadata.document_id = d) :=
        List.mem_filter.2 ⟨hp, by simpa using hpd⟩
      rw [hpre] at hmem2
      cases hmem2
    simpa using hnd
  · intro res hres x hx
    obtain ⟨p, hp, rfl⟩ := query_results_from_chunks hres x hx
    rw [hstate] at hp
    have := List.of_mem_filter hp
    simp only [decide_not, Bool.not_eq_true', decide_eq_false_iff_not] at this
    exact this

/-- A concrete store holding one chunk each of documents `"d1"` and `"d2"`
for user `"u1"`, used by witnesses. -/
def twoDocStore : StoreState :=
  (addDocument fallbackTokenCount constEnv
    (addDocument fallbackTokenCount constEnv ⟨[]⟩ "u1".toList "d1".toList
      "hello".toList none).2
    "u1".toList "d2".toList "world".toList none).2

/-- Witness for `delete_document_complete`: deleting `"d1"` from a store
with documents `"d1"` and `"d2"` keeps exactly the `"d2"` chunks, and a
delete with no matching chunks is a chunk-level no-op. -/
theorem delete_document_complete_witness :
    ((deleteDocument twoDocStore "u1".toList "d1".toList).1 = .ok true ∧
      chunksOfDoc (deleteDocument twoDocStore "u1".toList "d1".toList).2
        "u1".toList "d1".toList = [] ∧
      chunksOf (deleteDocument twoDocStore "u1".toList "d1".toList).2 "u1".toList =
        (chunksOf twoDocStore "u1".toList).filter
          (fun p => ¬ p.2.metadata.document_id = "d1".toList)) ∧
    chunksOf (deleteDocument (⟨[]⟩ : StoreState) "u9".toList "dx".toList).2
        "u9".toList = chunksOf (⟨[]⟩ : StoreState) "u9".toList := by
  have h₁ := delete_document_complete constEnv twoDocStore "u1".toList "d1".toList
    "q".toList 5 none
  have h₂ := delete_document_complete constEnv ⟨[]⟩ "u9".toList "dx".toList
    "q".toList 5 none
  exact ⟨⟨h₁.1, h₁.2.2.1, h₁.2.1⟩, h₂.2.2.2.1 (by decide)⟩

/-- C10: stale chunks survive a shrinking re-ingestion — after ingesting
`t₁` and then re-ingesting `t₂` with fewer chunks under the same document
id, every chunk of `t₁` whose ordinal is at or beyond the new chunk count
is still stored under its original id (`add_document` never deletes), and a
query over the whole collection can return its text. -/
theorem stale_chunks_after_shrinking_reingest (lenf : Str → Nat) (env : Env)
    (s : StoreState) (u d t₁ t₂ : Str) (md₁ md₂ : Option (List (Str × Str)))
    (embs : List Emb) (i : Nat)
    (hemb : env.embedDocuments 0 (splitText lenf t₁) = .ok embs)
    (hne : splitText lenf t₁ ≠ [])
    (hi : i < (splitText lenf t₁).length)
    (hstale : (splitText lenf t₂).length ≤ i) :
    assocGet (mkChunkId d i)
        (chunksOf (addDocument lenf env
          (addDocument lenf env s u d t₁ md₁).2 u d t₂ md₂).2 u)
      = some { embedding := embs.getD i []
               document := (splitText lenf t₁).getD i []
               metadata := buildMeta u d md₁ i } ∧
    (∀ qe q, env.embedQuery 0 q = .ok qe →
      ∃ res, (query env (addDocument lenf env
            (addDocument lenf env s u d t₁ md₁).2 u d t₂ md₂).2 u q
            (chunksOf (addDocument lenf env
              (addDocument lenf env s u d t₁ md₁).2 u d t₂ md₂).2 u).length
            none).1
          = .ok res ∧
        ∃ x ∈ res, x.text = (splitText lenf t₁).getD i [] ∧ x.document_id = d) := by
  have hfirst : assocGet (mkChunkId d i)
      (chunksOf (addDocument lenf env s u d t₁ md₁).2 u)
      = some { embedding := embs.getD i []
               document := (splitText lenf t₁).getD i []
               metadata := buildMeta u d md₁ i } := by
    rw [addDocument_chunksOf_self hemb hne]
    exact foldl_set_get_mem _ _ _ _ (chunkEntries_mem u d md₁ (splitText lenf t₁) embs hi)
      (chunkEntries_keys_nodup u d md₁ (splitText lenf t₁) embs)
  have hsecond : assocGet (mkChunkId d i)
      (chunksOf (addDocument lenf env
        (addDocument lenf env s u d t₁ md₁).2 u d t₂ md₂).2 u)
      = some { embedding := embs.getD i []
               document := (splitText lenf t₁).getD i []
               metadata := buildMeta u d md₁ i } := by
    by_cases hc₂ : splitText lenf t₂ = []
    · have h2 : (addDocument lenf env
          (addDocument lenf env s u d t₁ md₁).2 u d t₂ md₂).2
          = (addDocument lenf env s u d t₁ md₁).2 := by
        unfold addDocument
        simp [hc₂]
      rw [h2]
      exact hfirst
    · cases hemb₂ : env.embedDocuments 0 (splitText lenf t₂) with
      | error e =>
        have h2 := @addDocument_state_error lenf env
          (addDocument lenf env s u d t₁ md₁).2 u d t₂ md₂ e
          (by unfold addDocument; simp [hc₂, hemb₂]) u
        rw [h2]
        exact hfirst
      | ok embs₂ =>
        rw [addDocument_chunksOf_self hemb₂ hc₂]
        rw [foldl_set_get_ne]
        · exact hfirst
        · intro e he hek
          unfold chunkEntries at he
          obtain ⟨j, hj, rfl⟩ := List.mem_map.1 he
          have hj' := List.mem_range.1 hj
          have := mkChunkId_inj hek
          omega
  refine ⟨hsecond, ?_⟩
  intro qe q hq
  have hmem := assocGet_some_mem hsecond
  have hrow : (mkChunkId d i,
      ({ embedding := embs.getD i []
         document := (splitText lenf t₁).getD i []
         metadata := buildMeta u d md₁ i } : ChunkRec)) ∈
      collQuery env.dist
        (getOrCreateCollection (addDocument lenf env
          (addDocument lenf env s u d t₁ md₁).2 u d t₂ md₂).2 u).1 qe
        (chunksOf (addDocument lenf env
          (addDocument lenf env s u d t₁ md₁).2 u d t₂ md₂).2 u).length none := by
    apply collQuery_mem_of_mem
    · rw [getOrCreate_items]
      exact hmem
    · rw [getOrCreate_items]
  refine ⟨(collQuery env.dist
      (getOrCreateCollection (addDocument lenf env
        (addDocument lenf env s u d t₁ md₁).2 u d t₂ md₂).2 u).1 qe
      (chunksOf (addDocument lenf env
        (addDocument lenf env s u d t₁ md₁).2 u d t₂ md₂).2 u).length
      none).map (formatRow env.dist qe), ?_, ?_⟩
  · unfold query
    simp [hq]
  · exact ⟨_, List.mem_map_of_mem (formatRow env.dist qe) hrow, rfl, rfl⟩

/-- A stand-in tokenizer for the shrinking re-ingestion witness: 250 tokens
per character, so `"abc def"` splits into two chunks and `"xy"` into one. -/
def staleLen : Str → Nat := fun t => 250 * t.length

/-- Witness for `stale_chunks_after_shrinking_reingest`: after re-ingesting
`"d1"` with a one-chunk text over a two-chunk ingestion, the ordinal-1 chunk
of the first text is still stored. -/
theorem stale_chunks_after_shrinking_reingest_witness :
    assocGet (mkChunkId "d1".toList 1)
        (chunksOf (addDocument staleLen constEnv
          (addDocument staleLen constEnv ⟨[]⟩ "u1".toList "d1".toList
            "abc def".toList none).2
          "u1".toList "d1".toList "xy".toList none).2 "u1".toList)
      = some { embedding := [[0], [0]].getD 1 []
               document := (splitText staleLen "abc def".toList).getD 1 []
               metadata := buildMeta "u1".toList "d1".toList none 1 } :=
  (stale_chunks_after_shrinking_reingest staleLen constEnv ⟨[]⟩ "u1".toList
    "d1".toList "abc def".toList "xy".toList none none [[0], [0]] 1
    (by decide) (by decide) (by decide) (by decide)).1

theorem stripChars_nil_of_allWS {t : Str} (h : ∀ c ∈ t, isSpaceChar c = true) :
    stripChars t = [] := by
  unfold stripChars
  have h₁ : t.dropWhile isSpaceChar = [] := List.dropWhile_eq_nil_iff.2 h
  rw [h₁]
  rfl

theorem joinWithSep_allWS {sep : Str} (hsep : ∀ c ∈ sep, isSpaceChar c = true) :
    ∀ {l : List Str}, (∀ s ∈ l, ∀ c ∈ s, isSpaceChar c = true) →
      ∀ c ∈ joinWithSep sep l, isSpaceChar c = true := by
  intro l
  induction l with
  | nil => intro _ c hc; cases hc
  | cons d rest ih =>
    intro h c hc
    cases rest with
    | nil =>
      exact h d (List.mem_cons_self d []) c hc
    | cons e es =>
      have heq : joinWithSep sep (d :: e :: es)
          = d ++ sep ++ joinWithSep sep (e :: es) := rfl
      rw [heq] at hc
      rcases List.mem_append.1 hc with h₁ | h₂
      · rcases List.mem_append.1 h₁ with h₃ | h₄
        · exact h d (List.mem_cons_self d _) c h₃
        · exact hsep c h₄
      · exact ih (fun s hs => h s (List.mem_cons_of_mem d hs)) c h₂

theorem joinDocs_none_of_allWS {sep : Str} {l : List Str}
    (hsep : ∀ c ∈ sep, isSpaceChar c = true)
    (h : ∀ s ∈ l, ∀ c ∈ s, isSpaceChar c = true) : joinDocs l sep = none := by
  unfold joinDocs
  rw [stripChars_nil_of_allWS (joinWithSep_allWS hsep h)]
  rfl

theorem popWhile_pred {lenf : Str → Nat} {sepLen chunkSize overlap dLen : Nat}
    {P : Str → Prop} :
    ∀ {current : List Str} {total : Nat}, (∀ s ∈ current, P s) →
      ∀ s ∈ (popWhile lenf sepLen chunkSize overlap dLen total current).2, P s := by
  intro current
  induction current with
  | nil => intro total _ s hs; cases hs
  | cons c rest ih =>
    intro total h s hs
    rw [popWhile] at hs
    by_cases hg : total > overlap ∨ (total + dLen + sepLen > chunkSize ∧ total > 0)
    · rw [if_pos hg] at hs
      exact ih (fun x hx => h x (List.mem_cons_of_mem c hx)) s hs
    · rw [if_neg hg] at hs
      exact h s hs

theorem mergeGo_allWS {lenf : Str → Nat} {sep : Str} {chunkSize overlap : Nat}
    (hsep : ∀ c ∈ sep, isSpaceChar c = true) :
    ∀ (ss : List Str) (docs current : List Str) (total : Nat),
      (∀ s ∈ ss, ∀ c ∈ s, isSpaceChar c = true) →
      (∀ s ∈ current, ∀ c ∈ s, isSpaceChar c = true) →
      mergeSplitsGo lenf sep chunkSize overlap docs current total ss = docs := by
  intro ss
  induction ss with
  | nil =>
    intro docs current total _ hcur
    rw [mergeSplitsGo, joinDocs_none_of_allWS hsep hcur]
  | cons d ds ih =>
    intro docs current total hss hcur
    rw [mergeSplitsGo]
    simp only [joinDocs_none_of_allWS hsep hcur]
    by_cases hg : total + lenf d + (if current ≠ [] then lenf sep else 0) > chunkSize
        ∧ current ≠ []
    · rw [if_pos hg]
      apply ih
      · exact fun s hs => hss s (List.mem_cons_of_mem d hs)
      · intro s hs
        rcases List.mem_append.1 hs with h₁ | h₂
        · exact popWhile_pred hcur s h₁
        · rw [List.mem_singleton] at h₂
          exact h₂ ▸ hss d (List.mem_cons_self d ds)
    · rw [if_neg hg]
      apply ih
      · exact fun s hs => hss s (List.mem_cons_of_mem d hs)
      · intro s hs
        rcases List.mem_append.1 hs with h₁ | h₂
        · exact hcur s h₁
        · rw [List.mem_singleton] at h₂
          exact h₂ ▸ hss d (List.mem_cons_self d ds)

theorem splitOnSepAux_chars {sep : Str} {P : Char → Prop} :
    ∀ (fuel : Nat) (text acc : Str), (∀ c ∈ text, P c) → (∀ c ∈ acc, P c) →
      ∀ piece ∈ splitOnSepAux sep fuel text acc, ∀ c ∈ piece, P c := by
  intro fuel
  induction fuel with
  | zero =>
    intro text acc ht ha piece hp c hc
    rw [splitOnSepAux, List.mem_singleton] at hp
    subst hp
    rcases List.mem_append.1 hc with h₁ | h₂
    · exact ha c (List.mem_reverse.1 h₁)
    · exact ht c h₂
  | succ f ih =>
    intro text acc ht ha piece hp c hc
    cases text with
    | nil =>
      rw [splitOnSepAux, List.mem_singleton] at hp
      subst hp
      exact ha c (List.mem_reverse.1 hc)
    | cons x rest =>
      rw [splitOnSepAux] at hp
      by_cases hs : startsWithL sep (x :: rest) = true
      · rw [if_pos hs] at hp
        rcases List.mem_cons.1 hp with h₁ | h₂
        · subst h₁
          exact ha c (List.mem_reverse.1 hc)
        · refine ih _ [] (fun y hy => ?_) (fun y hy => by cases hy) piece h₂ c hc
          exact ht y (List.drop_subset _ _ hy)
      · rw [if_neg hs] at hp
        refine ih rest (x :: acc) (fun y hy => ht y (List.mem_cons_of_mem x hy))
          (fun y hy => ?_) piece hp c hc
        rcases List.mem_cons.1 hy with h₁ | h₂
        · exact h₁ ▸ ht x (List.mem_cons_self x rest)
        · exact ha y h₂

theorem splitTextWithSep_chars {sep text : Str} {P : Char → Prop}
    (hsep : ∀ c ∈ sep, P c) (ht : ∀ c ∈ text, P c) :
    ∀ piece ∈ splitTextWithSep sep text, ∀ c ∈ piece, P c := by
  intro piece hp c hc
  unfold splitTextWithSep at hp
  by_cases hse : sep = []
  · rw [if_pos hse] at hp
    have hp' := List.mem_of_mem_filter hp
    obtain ⟨x, hx, rfl⟩ := List.mem_map.1 hp'
    rw [List.mem_singleton] at hc
    exact hc ▸ ht x hx
  · rw [if_neg hse] at hp
    cases hso : splitOnSep sep text with
    | nil => rw [hso] at hp; cases hp
    | cons t0 ts =>
      rw [hso] at hp
      have hp' := List.mem_of_mem_filter hp
      have hall : ∀ piece ∈ splitOnSep sep text, ∀ c ∈ piece, P c :=
        splitOnSepAux_chars _ text [] ht (fun y hy => by cases hy)
      rcases List.mem_cons.1 hp' with h₁ | h₂
      · refine hall piece ?_ c hc
        rw [hso, h₁]
        exact List.mem_cons_self t0 ts
      · obtain ⟨x, hx, rfl⟩ := List.mem_map.1 h₂
        rcases List.mem_append.1 hc with h₃ | h₄
        · exact hsep c h₃
        · exact hall x (hso ▸ List.mem_cons_of_mem t0 hx) c h₄

theorem occursL_head_mem {c₀ : Char} {p t : Str} (h : occursL (c₀ :: p) t = true) :
    c₀ ∈ t := by
  induction t with
  | nil =>
    rw [occursL, startsWithL] at h
    cases h
  | cons x rest ih =>
    rw [occursL, Bool.or_eq_true] at h
    rcases h with h₁ | h₂
    · rw [startsWithL, Bool.and_eq_true] at h₁
      have : c₀ = x := by simpa using h₁.1
      exact this ▸ List.mem_cons_self x rest
    · exact List.mem_cons_of_mem x (ih h₂)

/-- The suffixes of the configured separator list reachable by the
recursive splitter. -/
def ragSuffixes : List (List Str) :=
  [ragSeparators,
   ["\n".toList, ". ".toList, " ".toList, []],
   [". ".toList, " ".toList, []],
   [" ".toList, []],
   [[]],
   []]

theorem chooseSep_rag (t : Str) (seps : List Str) (hs : seps ∈ ragSuffixes) :
    chooseSep t seps = ([], []) ∨
    (∃ s rest, chooseSep t seps = (s, rest) ∧ occursL s t = true ∧
      s ∈ ragSeparators ∧ s ≠ [] ∧ rest ≠ [] ∧ rest ∈ ragSuffixes ∧
      rest.length < seps.length) := by
  have step : ∀ (s : Str) (rest : List Str), s ≠ [] →
      occursL s t = false → rest ≠ [] →
      chooseSep t (s :: rest) = chooseSep t rest := by
    intro s rest h₁ h₂ h₃
    conv_lhs => rw [chooseSep.eq_def]
    simp only [if_neg h₁, h₂, Bool.false_eq_true, if_false]
    cases rest with
    | nil => exact absurd rfl h₃
    | cons a b => rfl
  have pick : ∀ (s : Str) (rest : List Str), s ≠ [] → occursL s t = true →
      chooseSep t (s :: rest) = (s, rest) := by
    intro s rest h₁ h₂
    conv_lhs => rw [chooseSep.eq_def]
    simp [if_neg h₁, h₂]
  fin_cases hs
  · by_cases o1 : occursL "\n\n".toList t = true
    · exact Or.inr ⟨_, _, pick _ _ (by decide) o1, o1, by decide, by decide,
        by decide, by decide, by decide⟩
    · rw [show (ragSeparators : List Str)
          = "\n\n".toList :: ["\n".toList, ". ".toList, " ".toList, []] from rfl,
        step _ _ (by decide) (Bool.eq_false_iff.2 o1) (by decide)]
      by_cases o2 : occursL "\n".toList t = true
      · exact Or.inr ⟨_, _, pick _ _ (by decide) o2, o2, by decide, by decide,
          by decide, by decide, by decide⟩
      · rw [step _ _ (by decide) (Bool.eq_false_iff.2 o2) (by decide)]
        by_cases o3 : occursL ". ".toList t = true
        · exact Or.inr ⟨_, _, pick _ _ (by decide) o3, o3, by decide, by decide,
            by decide, by decide, by decide⟩
        · rw [step _ _ (by decide) (Bool.eq_false_iff.2 o3) (by decide)]
          by_cases o4 : occursL " ".toList t = true
          · exact Or.inr ⟨_, _, pick _ _ (by decide) o4, o4, by decide, by decide,
              by decide, by decide, by decide⟩
          · rw [step _ _ (by decide) (Bool.eq_false_iff.2 o4) (by decide)]
            exact Or.inl rfl
  · by_cases o2 : occursL "\n".toList t = true
    · exact Or.inr ⟨_, _, pick _ _ (by decide) o2, o2, by decide, by decide,
        by decide, by decide, by decide⟩
    · rw [step _ _ (by decide) (Bool.eq_false_iff.2 o2) (by decide)]
      by_cases o3 : occursL ". ".toList t = true
      · exact Or.inr ⟨_, _, pick _ _ (by decide) o3, o3, by decide, by decide,
          by decide, by decide, by decide⟩
      · rw [step _ _ (by decide) (Bool.eq_false_iff.2 o3) (by decide)]
        by_cases o4 : occursL " ".toList t = true
        · exact Or.inr ⟨_, _, pick _ _ (by decide) o4, o4, by decide, by decide,
            by decide, by decide, by decide⟩
        · rw [step _ _ (by decide) (Bool.eq_false_iff.2 o4) (by decide)]
          exact Or.inl rfl
  · by_cases o3 : occursL ". ".toList t = true
    · exact Or.inr ⟨_, _, pick _ _ (by decide) o3, o3, by decide, by decide,
        by decide, by decide, by decide⟩
    · rw [step _ _ (by decide) (Bool.eq_false_iff.2 o3) (by decide)]
      by_cases o4 : occursL " ".toList t = true
      · exact Or.inr ⟨_, _, pick _ _ (by decide) o4, o4, by decide, by decide,
          by decide, by decide, by decide⟩
      · rw [step _ _ (by decide) (Bool.eq_false_iff.2 o4) (by decide)]
        exact Or.inl rfl
  · by_cases o4 : occursL " ".toList t = true
    · exact Or.inr ⟨_, _, pick _ _ (by decide) o4, o4, by decide, by decide,
        by decide, by decide, by decide⟩
    · rw [step _ _ (by decide) (Bool.eq_false_iff.2 o4) (by decide)]
      exact Or.inl rfl
  · exact Or.inl rfl
  · exact Or.inl rfl

theorem processSplits_acc {lenf : Str → Nat} {chunkSize : Nat}
    {mergeFn : List Str → List Str} {recurse : Str → List Str} {fe : Bool} :
    ∀ (ss good final : List Str),
      (∀ g, (∀ s ∈ g, ∀ c ∈ s, isSpaceChar c = true) → mergeFn g = []) →
      (∀ s ∈ ss, ∀ c ∈ s, isSpaceChar c = true) →
      (∀ s ∈ good, ∀ c ∈ s, isSpaceChar c = true) →
      (∀ s ∈ ss, lenf s < chunkSize ∨ (fe = false ∧ recurse s = [])) →
      processSplits lenf chunkSize mergeFn recurse fe ss good final = final := by
  intro ss
  induction ss with
  | nil =>
    intro good final hmf _ hgood _
    rw [processSplits]
    by_cases hg : good = []
    · simp [hg]
    · simp [hg, hmf good hgood]
  | cons s ss' ih =>
    intro good final hmf hss hgood hdisj
    rw [processSplits]
    by_cases hlen : lenf s < chunkSize
    · rw [if_pos hlen]
      apply ih _ _ hmf (fun x hx => hss x (List.mem_cons_of_mem s hx))
      · intro x hx
        rcases List.mem_append.1 hx with h₁ | h₂
        · exact hgood x h₁
        · rw [List.mem_singleton] at h₂
          exact h₂ ▸ hss s (List.mem_cons_self s ss')
      · exact fun x hx => hdisj x (List.mem_cons_of_mem s hx)
    · rw [if_neg hlen]
      rcases hdisj s (List.mem_cons_self s ss') with h₁ | ⟨hfe, hrec⟩
      · exact absurd h₁ hlen
      · have hfin₁ : (if good ≠ [] then final ++ mergeFn good else final) = final := by
          by_cases hg : good = []
          · simp [hg]
          · simp [hg, hmf good hgood]
        subst hfe
        rw [hfin₁]
        simp only [Bool.false_eq_true, if_false, hrec, List.append_nil]
        apply ih
        · exact hmf
        · exact fun x hx => hss x (List.mem_cons_of_mem s hx)
        · intro x hx
          cases hx
        · exact fun x hx => hdisj x (List.mem_cons_of_mem s hx)

theorem splitTextRec_ws {lenf : Str → Nat} {CS OV : Nat}
    (hl : ∀ c : Char, lenf [c] < CS) :
    ∀ (fuel : Nat) (seps : List Str) (t : Str), seps ∈ ragSuffixes →
      seps.length < fuel → (∀ c ∈ t, isSpaceChar c = true) →
      splitTextRec lenf CS OV fuel seps t = [] := by
  intro fuel
  induction fuel with
  | zero => intro seps t _ hlen _; omega
  | succ f ih =>
    intro seps t hs hlen hw
    rw [splitTextRec]
    have hmf : ∀ g, (∀ s ∈ g, ∀ c ∈ s, isSpaceChar c = true) →
        mergeSplits lenf [] CS OV g = [] := by
      intro g hg
      exact mergeGo_allWS (fun c hc => by cases hc) g [] [] 0 hg
        (fun s hs => by cases hs)
    rcases chooseSep_rag t seps hs with hcs | ⟨s, rest, hcs, ho, hmem, hne, hrne, hrest, hlt⟩
    · rw [hcs]
      simp only
      have hpieces : ∀ piece ∈ splitTextWithSep [] t, ∀ c ∈ piece,
          isSpaceChar c = true :=
        splitTextWithSep_chars (fun c hc => by cases hc) hw
      apply processSplits_acc _ _ _ hmf hpieces (fun x hx => by cases hx)
      intro piece hp
      left
      have : piece ∈ (t.map (fun c => ([c] : Str))).filter (fun s => s ≠ []) := by
        unfold splitTextWithSep at hp
        simpa using hp
      obtain ⟨c, _, rfl⟩ := List.mem_map.1 (List.mem_of_mem_filter this)
      exact hl c
    · rw [hcs]
      simp only
      have hsw : ∀ c ∈ s, isSpaceChar c = true := by
        fin_cases hmem
        · decide
        · decide
        · exfalso
          have hdot : '.' ∈ t := occursL_head_mem ho
          have := hw '.' hdot
          simp [isSpaceChar] at this
        · decide
        · exact absurd rfl hne
      have hpieces : ∀ piece ∈ splitTextWithSep s t, ∀ c ∈ piece,
          isSpaceChar c = true := splitTextWithSep_chars hsw hw
      apply processSplits_acc _ _ _ hmf hpieces (fun x hx => by cases hx)
      intro piece hp
      right
      constructor
      · simp [hrne]
      · exact ih rest piece hrest (by omega) (hpieces piece hp)

/-- C6: ingesting empty or whitespace-only text returns chunk count 0
without an error, stores nothing (the store is exactly as before the call),
and leaves `get_document_count` unchanged.  The hypothesis on `lenf` says
the tokenizer gives a single character fewer tokens than the chunk budget,
which holds for any real tokenizer and for the `len // 4` fallback. -/
theorem empty_input_zero_chunks (lenf : Str → Nat) (env : Env) (s : StoreState)
    (u d t : Str) (md : Option (List (Str × Str)))
    (hw : ∀ c ∈ t, isSpaceChar c = true)
    (hl : ∀ c : Char, lenf [c] < ragChunkSize) :
    addDocument lenf env s u d t md = (.ok 0, s) ∧
    (getDocumentCount (addDocument lenf env s u d t md).2 u).1
      = (getDocumentCount s u).1 := by
  have hsplit : splitText lenf t = [] := by
    unfold splitText
    exact splitTextRec_ws hl _ ragSeparators t (by simp [ragSuffixes])
      (by simp [ragSeparators]) hw
  have h₁ : addDocument lenf env s u d t md = (.ok 0, s) := by
    unfold addDocument
    simp [hsplit]
  exact ⟨h₁, by rw [h₁]⟩

/-- Witness for `empty_input_zero_chunks` at the empty text and a
whitespace-only text, with the fallback tokenizer. -/
theorem empty_input_zero_chunks_witness :
    addDocument fallbackTokenCount constEnv twoDocStore "u1".toList "d9".toList
        [] none = (.ok 0, twoDocStore) ∧
    addDocument fallbackTokenCount constEnv twoDocStore "u1".toList "d9".toList
        "  \n\t ".toList none = (.ok 0, twoDocStore) := by
  have hl : ∀ c : Char, fallbackTokenCount [c] < ragChunkSize := by
    intro c
    norm_num [fallbackTokenCount, ragChunkSize]
  exact ⟨(empty_input_zero_chunks fallbackTokenCount constEnv twoDocStore
      "u1".toList "d9".toList [] none (by decide) hl).1,
    (empty_input_zero_chunks fallbackTokenCount constEnv twoDocStore
      "u1".toList "d9".toList "  \n\t ".toList none (by decide) hl).1⟩

theorem listTotal_zero_cons (f : Str → Nat) (d : Str) (rest : List Str) :
    listTotal f 0 (d :: rest) = f d + listTotal f 0 rest := by
  cases rest with
  | nil => simp [listTotal]
  | cons e es => simp [listTotal]

/-- C8 (amended): the overlap re-included from the previous chunk is
best-effort and bounded above — after emitting a chunk, the merge loop pops
retained pieces until their tracked total is at most the configured
`chunk_overlap` (200), so the next chunk re-includes at most 200 tokens of
trailing content, possibly none at all (see the counterexample, where the
shared overlap is zero). -/
theorem overlap_at_most_configured (lenf : Str → Nat) (sepLen chunkSize dLen : Nat)
    (current : List Str) (total : Nat)
    (h : total = listTotal lenf sepLen current) :
    (popWhile lenf sepLen chunkSize ragChunkOverlap dLen total current).1
      ≤ ragChunkOverlap := by
  induction current generalizing total with
  | nil =>
    rw [popWhile]
    simp only [listTotal] at h
    simp [h, ragChunkOverlap]
  | cons c rest ih =>
    rw [popWhile]
    by_cases hg : total > ragChunkOverlap ∨
        (total + dLen + sepLen > chunkSize ∧ total > 0)
    · rw [if_pos hg]
      apply ih
      cases rest with
      | nil =>
        simp only [listTotal] at h ⊢
        simp [h]
      | cons e es =>
        have heq : listTotal lenf sepLen (c :: e :: es)
            = lenf c + sepLen + listTotal lenf sepLen (e :: es) := rfl
        rw [heq] at h
        simp only [ne_eq, List.cons_ne_nil, not_false_iff, if_true]
        omega
    · rw [if_neg hg]
      simp only [not_or] at hg
      omega

/-- Witness for `overlap_at_most_configured` on a concrete window. -/
theorem overlap_at_most_configured_witness :
    (popWhile fallbackTokenCount 0 1000 ragChunkOverlap 100 2
        ["abcdefghij".toList]).1 ≤ ragChunkOverlap :=
  overlap_at_most_configured fallbackTokenCount 0 1000 100
    ["abcdefghij".toList] 2 (by decide)

theorem joinWithSep_nil_length (l : List Str) :
    (joinWithSep [] l).length = listTotal (fun s => s.length) 0 l := by
  induction l with
  | nil => rfl
  | cons d rest ih =>
    cases rest with
    | nil => simp [joinWithSep, listTotal]
    | cons e es =>
      have heq : joinWithSep [] (d :: e :: es)
          = d ++ [] ++ joinWithSep [] (e :: es) := rfl
      rw [heq, listTotal_zero_cons]
      simp only [List.append_nil, List.length_append]
      rw [ih]

theorem stripChars_length_le (t : Str) : (stripChars t).length ≤ t.length := by
  unfold stripChars
  calc ((t.dropWhile isSpaceChar).reverse.dropWhile isSpaceChar).reverse.length
      = ((t.dropWhile isSpaceChar).reverse.dropWhile isSpaceChar).length := by
        rw [List.length_reverse]
    _ ≤ (t.dropWhile isSpaceChar).reverse.length := (List.dropWhile_sublist _).length_le
    _ = (t.dropWhile isSpaceChar).length := by rw [List.length_reverse]
    _ ≤ t.length := (List.dropWhile_sublist _).length_le

theorem joinDocs_length_le {current : List Str} {doc : Str}
    (h : joinDocs current [] = some doc) :
    doc.length ≤ listTotal (fun s => s.length) 0 current := by
  unfold joinDocs at h
  simp only at h
  by_cases he : stripChars (joinWithSep [] current) = []
  · rw [if_pos he] at h
    cases h
  · rw [if_neg he] at h
    have hdoc := (Option.some.inj h).symm
    subst hdoc
    calc (stripChars (joinWithSep [] current)).length ≤ (joinWithSep [] current).length := stripChars_length_le _
      _ = listTotal (fun s => s.length) 0 current := joinWithSep_nil_length current

theorem listTotal_zero_eq_sum (f : Str → Nat) :
    ∀ l : List Str, listTotal f 0 l = (l.map f).sum := by
  intro l
  induction l with
  | nil => rfl
  | cons d rest ih => rw [listTotal_zero_cons, List.map_cons, List.sum_cons, ih]

theorem popWhile_zero_sep (lenf : Str → Nat) (CS OV dLen : Nat) :
    ∀ (current : List Str) (total : Nat),
      total = listTotal lenf 0 current →
      (popWhile lenf 0 CS OV dLen total current).1
        = listTotal lenf 0 (popWhile lenf 0 CS OV dLen total current).2 ∧
      ((popWhile lenf 0 CS OV dLen total current).1 + dLen ≤ CS ∨
        (popWhile lenf 0 CS OV dLen total current).1 = 0) := by
  intro current
  induction current with
  | nil =>
    intro total h
    rw [popWhile]
    simp only [listTotal] at h
    exact ⟨by simp [listTotal, h], Or.inr h⟩
  | cons c rest ih =>
    intro total h
    rw [popWhile]
    by_cases hg : total > OV ∨ (total + dLen + 0 > CS ∧ total > 0)
    · rw [if_pos hg]
      apply ih
      rw [listTotal_zero_cons] at h
      have hite : (if rest ≠ [] then 0 else 0) = 0 := by
        by_cases hr : rest = [] <;> simp [hr]
      rw [hite]
      omega
    · rw [if_neg hg]
      simp only [not_or, not_and, not_lt] at hg
      refine ⟨h, ?_⟩
      by_cases h0 : total = 0
      · exact Or.inr h0
      · exact Or.inl (by have := hg.2; omega)

theorem mergeGo_length_bound (CS OV : Nat) :
    ∀ (ss docs current : List Str) (total : Nat),
      (∀ s ∈ ss, s.length < CS) →
      total = listTotal (fun s => s.length) 0 current →
      total ≤ CS →
      (∀ c ∈ docs, c.length ≤ CS) →
      ∀ c ∈ mergeSplitsGo (fun s => s.length) [] CS OV docs current total ss,
        c.length ≤ CS := by
  intro ss
  induction ss with
  | nil =>
    intro docs current total _ hinv htot hdocs c hc
    rw [mergeSplitsGo] at hc
    cases hj : joinDocs current [] with
    | none => rw [hj] at hc; exact hdocs c hc
    | some doc =>
      rw [hj] at hc
      rcases List.mem_append.1 hc with h₁ | h₂
      · exact hdocs c h₁
      · rw [List.mem_singleton] at h₂
        subst h₂
        calc c.length ≤ listTotal (fun s => s.length) 0 current :=
              joinDocs_length_le hj
          _ = total := hinv.symm
          _ ≤ CS := htot
  | cons d ds ih =>
    intro docs current total hss hinv htot hdocs c hc
    rw [mergeSplitsGo] at hc
    simp only [List.length_nil] at hc
    have hdlt : d.length < CS := hss d (List.mem_cons_self d ds)
    have hss' : ∀ s ∈ ds, s.length < CS :=
      fun s hs => hss s (List.mem_cons_of_mem d hs)
    have happ : ∀ (l : List Str),
        listTotal (fun s => s.length) 0 (l ++ [d])
          = listTotal (fun s => s.length) 0 l + d.length := by
      intro l
      rw [listTotal_zero_eq_sum, listTotal_zero_eq_sum, List.map_append,
        List.sum_append]
      simp
    by_cases hg : total + d.length + (if current ≠ [] then 0 else 0) > CS
        ∧ current ≠ []
    · rw [if_pos hg] at hc
      have hpop := popWhile_zero_sep (fun s => s.length) CS OV d.length
        current total hinv
      have hdocs' : ∀ x ∈ (match joinDocs current [] with
          | some doc => docs ++ [doc]
          | none => docs), x.length ≤ CS := by
        cases hj : joinDocs current [] with
        | none => simpa using hdocs
        | some doc =>
          intro x hx
          rcases List.mem_append.1 hx with h₁ | h₂
          · exact hdocs x h₁
          · rw [List.mem_singleton] at h₂
            subst h₂
            calc x.length ≤ listTotal (fun s => s.length) 0 current :=
                  joinDocs_length_le hj
              _ = total := hinv.symm
              _ ≤ CS := htot
      refine ih _ _ _ hss' ?_ ?_ hdocs' c hc
      · have hite : (if (popWhile (fun s => s.length) 0 CS OV d.length total
            current).2 ≠ [] then 0 else 0) = 0 := by
          by_cases hr : (popWhile (fun s => s.length) 0 CS OV d.length total
            current).2 = [] <;> simp [hr]
        rw [hite, happ, hpop.1]
        omega
      · rcases hpop.2 with h₁ | h₂
        · have hite : (if (popWhile (fun s => s.length) 0 CS OV d.length total
              current).2 ≠ [] then 0 else 0) = 0 := by
            by_cases hr : (popWhile (fun s => s.length) 0 CS OV d.length total
              current).2 = [] <;> simp [hr]
          rw [hite]
          omega
        · have hite : (if (popWhile (fun s => s.length) 0 CS OV d.length total
              current).2 ≠ [] then 0 else 0) = 0 := by
            by_cases hr : (popWhile (fun s => s.length) 0 CS OV d.length total
              current).2 = [] <;> simp [hr]
          rw [hite, h₂]
          omega
    · rw [if_neg hg] at hc
      have hite : (if current ≠ [] then 0 else 0) = 0 := by
        by_cases hr : current = [] <;> simp [hr]
      refine ih _ _ _ hss' ?_ ?_ hdocs c hc
      · rw [hite, happ, hinv]
        omega
      · rw [hite]
        by_cases hcur : current = []
        · subst hcur
          simp only [listTotal] at hinv
          omega
        · have : ¬ (total + d.length + (if current ≠ [] then 0 else 0) > CS) :=
            fun hh => hg ⟨hh, hcur⟩
          rw [hite] at this
          omega

theorem startsWithL_head_ne {a b : Char} (h : ¬ a = b) (pa t : Str) :
    startsWithL (a :: pa) (b :: t) = false := by
  rw [startsWithL]
  simp [h]

theorem occursL_skip_replicate {c₀ : Char} {pat : Str} {c : Char} (h : ¬ c₀ = c) :
    ∀ (n : Nat) (rest : Str),
      occursL (c₀ :: pat) (List.replicate n c ++ rest) = occursL (c₀ :: pat) rest := by
  intro n
  induction n with
  | zero => intro rest; rfl
  | succ m ih =>
    intro rest
    rw [List.replicate_succ, List.cons_append, occursL, startsWithL_head_ne h,
      Bool.false_or, ih]

theorem occursL_false_of_not_mem {c₀ : Char} {pat t : Str} (h : c₀ ∉ t) :
    occursL (c₀ :: pat) t = false := by
  cases hoc : occursL (c₀ :: pat) t with
  | false => rfl
  | true => exact absurd (occursL_head_mem hoc) h

theorem splitOnSepAux_skip {sep : Str} {c : Char}
    (h : ∀ t : Str, startsWithL sep (c :: t) = false) :
    ∀ (n : Nat) (g : Nat) (rest acc : Str),
      splitOnSepAux sep (n + g) (List.replicate n c ++ rest) acc
        = splitOnSepAux sep g rest (List.replicate n c ++ acc) := by
  intro n
  induction n with
  | zero => intro g rest acc; simp
  | succ m ih =>
    intro g rest acc
    have hfuel : m + 1 + g = (m + g) + 1 := by omega
    rw [hfuel, List.replicate_succ, List.cons_append, splitOnSepAux, h]
    simp only [Bool.false_eq_true, if_false]
    rw [ih]
    congr 1
    calc List.replicate m c ++ c :: acc
        = (List.replicate m c ++ [c]) ++ acc := by simp
      _ = List.replicate (m + 1) c ++ acc := by rw [← List.replicate_succ' m c]
      _ = c :: List.replicate m c ++ acc := by rw [List.replicate_succ]

theorem dropWhile_replicate_of_neg {p : Char → Bool} {c : Char} (h : p c = false)
    (n : Nat) : (List.replicate n c).dropWhile p = List.replicate n c := by
  cases n with
  | zero => rfl
  | succ m =>
    rw [List.replicate_succ, List.dropWhile_cons, h]
    simp

theorem stripChars_ends {x y : Char} (hx : isSpaceChar x = false)
    (hy : isSpaceChar y = false) (m : Str) :
    stripChars (x :: m ++ [y]) = x :: m ++ [y] := by
  unfold stripChars
  have h₁ : (x :: m ++ [y]).dropWhile isSpaceChar = x :: m ++ [y] := by
    rw [List.cons_append, List.dropWhile_cons, hx]
    simp
  rw [h₁]
  have h₂ : (x :: m ++ [y]).reverse = y :: (m.reverse ++ [x]) := by
    rw [List.cons_append, List.reverse_cons, List.reverse_append]
    simp
  rw [h₂]
  have h₃ : (y :: (m.reverse ++ [x])).dropWhile isSpaceChar
      = y :: (m.reverse ++ [x]) := by
    rw [List.dropWhile_cons, hy]
    simp
  rw [h₃, List.reverse_cons, List.reverse_append]
  simp

theorem stripChars_cons_space {s : Char} (h : isSpaceChar s = true) (t : Str) :
    stripChars (s :: t) = stripChars t := by
  unfold stripChars
  rw [List.dropWhile_cons, h]
  simp

theorem stripChars_replicate {c : Char} (h : isSpaceChar c = false) (n : Nat) :
    stripChars (List.replicate n c) = List.replicate n c := by
  unfold stripChars
  rw [dropWhile_replicate_of_neg h, List.reverse_replicate,
    dropWhile_replicate_of_neg h, List.reverse_replicate]

theorem processSplits_all_good {lenf : Str → Nat} {chunkSize : Nat}
    {mergeFn : List Str → List Str} {recurse : Str → List Str} {fe : Bool} :
    ∀ (ss good final : List Str), (∀ s ∈ ss, lenf s < chunkSize) →
      processSplits lenf chunkSize mergeFn recurse fe ss good final
        = if good ++ ss = [] then final else final ++ mergeFn (good ++ ss) := by
  intro ss
  induction ss with
  | nil =>
    intro good final _
    rw [processSplits]
    by_cases hg : good = []
    · simp [hg]
    · simp [hg]
  | cons s ss' ih =>
    intro good final h
    rw [processSplits, if_pos (h s (List.mem_cons_self s ss')),
      ih (good ++ [s]) final (fun x hx => h x (List.mem_cons_of_mem s hx))]
    have hne : good ++ s :: ss' ≠ [] := by simp
    have hne' : good ++ [s] ++ ss' ≠ [] := by simp
    rw [if_neg hne', if_neg hne]
    simp

/-- First paragraph of the C8 counterexample text: 2008 copies of `'a'`
(502 fallback tokens). -/
def textA : Str := List.replicate 2008 'a'

/-- Second paragraph of the C8 counterexample text: 2004 copies of `'b'`
(501 fallback tokens). -/
def textB : Str := List.replicate 2004 'b'

/-- The C8 counterexample document: two paragraphs separated by a blank
line; each measures under the 1000-token budget, together they exceed it,
and the first alone exceeds the 200-token overlap, so the merge loop
retains nothing between chunks. -/
def textC8 : Str := textA ++ '\n' :: '\n' :: textB

theorem splitOnSep_textC8 :
    splitOnSep "\n\n".toList textC8 = [textA, textB] := by
  have hA : ∀ t : Str, startsWithL "\n\n".toList ('a' :: t) = false :=
    fun t => startsWithL_head_ne (by decide) _ t
  have hB : ∀ t : Str, startsWithL "\n\n".toList ('b' :: t) = false :=
    fun t => startsWithL_head_ne (by decide) _ t
  have hlen : textC8.length = 4014 := by
    unfold textC8 textA textB
    rw [List.length_append, List.length_replicate, List.length_cons,
      List.length_cons, List.length_replicate]
  unfold splitOnSep
  rw [hlen]
  have h1 : (4014 + 1 : Nat) = 2008 + 2007 := by norm_num
  rw [h1]
  unfold textC8 textA
  rw [splitOnSepAux_skip hA 2008 2007 _ _]
  have h2 : (2007 : Nat) = 2006 + 1 := by norm_num
  rw [h2, splitOnSepAux]
  have hst : startsWithL "\n\n".toList ('\n' :: '\n' :: textB) = true := by
    simp [startsWithL]
  rw [hst]
  simp only [if_true]
  have hdrop : ('\n' :: '\n' :: textB).drop ("\n\n".toList).length = textB := rfl
  rw [hdrop]
  have hrev : (List.replicate 2008 'a' ++ ([] : Str)).reverse
      = List.replicate 2008 'a' := by
    rw [List.append_nil, List.reverse_replicate]
  rw [hrev]
  have h3 : (2006 : Nat) = 2004 + 2 := by norm_num
  have hBapp : textB = List.replicate 2004 'b' ++ ([] : Str) := by
    unfold textB
    exact (List.append_nil _).symm
  rw [h3, hBapp, splitOnSepAux_skip hB 2004 2 _ _]
  rw [show (2 : Nat) = 1 + 1 from rfl, splitOnSepAux]
  rw [List.append_nil, List.reverse_replicate]

theorem textA_ne_nil : textA ≠ [] := by
  unfold textA
  rw [List.replicate_succ]
  exact List.cons_ne_nil _ _

theorem splitTextWithSep_textC8 :
    splitTextWithSep "\n\n".toList textC8 = [textA, '\n' :: '\n' :: textB] := by
  unfold splitTextWithSep
  rw [if_neg (show ¬("\n\n".toList : Str) = [] by decide), splitOnSep_textC8]
  show (textA :: [textB].map (fun t => "\n\n".toList ++ t)).filter
      (fun s => s ≠ []) = _
  rw [List.map_cons, List.map_nil]
  have hfil : (textA :: ["\n\n".toList ++ textB]).filter (fun s => s ≠ [])
      = textA :: ["\n\n".toList ++ textB] := by
    apply List.filter_eq_self.2
    intro a ha
    rcases List.mem_cons.1 ha with rfl | h
    · simpa using textA_ne_nil
    · rw [List.mem_singleton] at h
      subst h
      simp
  rw [hfil]
  rfl

theorem tokens_textA : fallbackTokenCount textA = 502 := by
  unfold fallbackTokenCount textA
  rw [List.length_replicate]

theorem tokens_nnB : fallbackTokenCount ('\n' :: '\n' :: textB) = 501 := by
  unfold fallbackTokenCount textB
  rw [List.length_cons, List.length_cons, List.length_replicate]

theorem chooseSep_textC8 :
    chooseSep textC8 ragSeparators = ("\n\n".toList,
      ["\n".toList, ". ".toList, " ".toList, []]) := by
  have ho : occursL "\n\n".toList textC8 = true := by
    unfold textC8 textA
    rw [show ("\n\n".toList : Str) = '\n' :: '\n' :: [] from rfl]
    rw [occursL_skip_replicate (by decide) 2008 ('\n' :: '\n' :: textB)]
    rw [occursL]
    have hsw : startsWithL ['\n', '\n'] ('\n' :: '\n' :: textB) = true := by
      simp [startsWithL]
    rw [hsw]
    rfl
  conv_lhs => rw [chooseSep.eq_def]
  simp only [ragSeparators]
  rw [if_neg (show ¬("\n\n".toList : Str) = [] by decide), ho]
  simp

theorem stripChars_textA : stripChars textA = textA := by
  unfold textA
  exact stripChars_replicate (by decide) 2008

theorem joinDocs_textA : joinDocs [textA] [] = some textA := by
  unfold joinDocs
  have hjoin : joinWithSep [] [textA] = textA := rfl
  rw [hjoin, stripChars_textA]
  simp only
  rw [if_neg textA_ne_nil]

theorem joinDocs_nnB : joinDocs ['\n' :: '\n' :: textB] [] = some textB := by
  unfold joinDocs
  have hjoin : joinWithSep [] ['\n' :: '\n' :: textB] = '\n' :: '\n' :: textB := rfl
  rw [hjoin, stripChars_cons_space (by decide), stripChars_cons_space (by decide)]
  rw [show stripChars textB = textB from stripChars_replicate (by decide) 2004]
  simp only
  have hBne : textB ≠ [] := by
    unfold textB
    rw [List.replicate_succ]
    exact List.cons_ne_nil _ _
  rw [if_neg hBne]

theorem splitText_textC8 :
    splitText fallbackTokenCount textC8 = [textA, textB] := by
  unfold splitText
  rw [show ragSeparators.length + 1 = 5 + 1 from rfl, splitTextRec, chooseSep_textC8]
  simp only
  rw [splitTextWithSep_textC8]
  rw [processSplits_all_good _ _ _ ?hgood]
  case hgood =>
    intro s hs
    rcases List.mem_cons.1 hs with rfl | h
    · rw [tokens_textA]
      norm_num [ragChunkSize]
    · rw [List.mem_singleton] at h
      subst h
      rw [tokens_nnB]
      norm_num [ragChunkSize]
  rw [if_neg (by simp), List.nil_append, List.nil_append]
  unfold mergeSplits
  rw [mergeSplitsGo]
  simp only
  rw [if_neg (fun h => h.2 rfl)]
  simp only [List.nil_append]
  rw [mergeSplitsGo]
  simp only
  rw [if_pos ?hc2]
  case hc2 =>
    constructor
    · have h0 : (if ¬([] : List Str) = [] then fallbackTokenCount [] else 0) = 0 := by
        simp
      have h1 : (if ¬([textA] : List Str) = [] then fallbackTokenCount [] else 0)
          = fallbackTokenCount [] := by
        simp
      rw [h0, h1, tokens_textA, tokens_nnB]
      norm_num [fallbackTokenCount, ragChunkSize]
    · simp
  rw [joinDocs_textA]
  simp only [List.nil_append]
  rw [popWhile]
  rw [if_pos ?hc3]
  case hc3 =>
    left
    have h0 : (if ¬([] : List Str) = [] then fallbackTokenCount [] else 0) = 0 := by
      simp
    rw [h0, tokens_textA]
    norm_num [ragChunkOverlap]
  rw [popWhile]
  rw [mergeSplitsGo]
  simp only [List.nil_append]
  rw [joinDocs_nnB]
  rfl

/-- "These two chunks share at least `n` tokens of text": some non-empty
string is simultaneously a suffix of the first chunk and a prefix of the
second, and measures at least `n` tokens. -/
def sharesOverlap (lenf : Str → Nat) (c₁ c₂ : Str) (n : Nat) : Prop :=
  ∃ s : Str, s ≠ [] ∧ s <:+ c₁ ∧ s <+: c₂ ∧ n ≤ lenf s

/-- C8 is false as stated: the splitter as configured (budget 1000, overlap
200, fallback token count) cuts `textC8` into exactly two consecutive
chunks that share no text at all — the trailing piece of the first chunk
measures over 200 tokens, so the merge loop retains nothing. -/
theorem overlap_can_vanish :
    splitText fallbackTokenCount textC8 = [textA, textB] ∧
    ¬ sharesOverlap fallbackTokenCount textA textB 190 := by
  refine ⟨splitText_textC8, ?_⟩
  rintro ⟨s, hne, hsuf, hpre, _⟩
  cases s with
  | nil => exact hne rfl
  | cons x s' =>
    have hxa : x = 'a' := by
      unfold textA at hsuf
      exact List.eq_of_mem_replicate (hsuf.subset (List.mem_cons_self x s'))
    have hxb : x = 'b' := by
      unfold textB at hpre
      exact List.eq_of_mem_replicate (hpre.subset (List.mem_cons_self x s'))
    rw [hxa] at hxb
    exact absurd hxb (by decide)

theorem chooseSep_pick (t : Str) (s : Str) (rest : List Str) (h₁ : s ≠ [])
    (h₂ : occursL s t = true) : chooseSep t (s :: rest) = (s, rest) := by
  conv_lhs => rw [chooseSep.eq_def]
  simp [if_neg h₁, h₂]

theorem chooseSep_skip (t : Str) (s : Str) (rest : List Str) (h₁ : s ≠ [])
    (h₂ : occursL s t = false) (h₃ : rest ≠ []) :
    chooseSep t (s :: rest) = chooseSep t rest := by
  conv_lhs => rw [chooseSep.eq_def]
  simp only [if_neg h₁, h₂, Bool.false_eq_true, if_false]
  cases rest with
  | nil => exact absurd rfl h₃
  | cons a b => rfl

/-- The C9 counterexample words: `n` copies of the two-character word
`"ab"`, each measuring 0 fallback tokens. -/
def wordsAB (n : Nat) : List Str := List.replicate n ['a', 'b']

/-- The C9 counterexample text: `n` copies of `"ab"` joined by single
spaces; at `n = 2000` it splits into word pieces that all measure 0 tokens,
so the merge loop packs all of them into one chunk of 1499 tokens. -/
def textC9 (n : Nat) : Str := joinWithSep [' '] (wordsAB n)

theorem textC9_one : textC9 1 = ['a', 'b'] := rfl

theorem textC9_succ (k : Nat) :
    textC9 (k + 2) = 'a' :: 'b' :: ' ' :: textC9 (k + 1) := by
  unfold textC9 wordsAB
  simp only [List.replicate_succ]
  rfl

theorem textC9_length : ∀ k, (textC9 (k + 1)).length = 3 * k + 2 := by
  intro k
  induction k with
  | zero => rfl
  | succ m ih =>
    rw [textC9_succ m, List.length_cons, List.length_cons, List.length_cons, ih]
    omega

theorem textC9_mem : ∀ k c, c ∈ textC9 (k + 1) → c = 'a' ∨ c = 'b' ∨ c = ' ' := by
  intro k
  induction k with
  | zero =>
    intro c hc
    rw [textC9_one] at hc
    rcases List.mem_cons.1 hc with rfl | hc'
    · exact Or.inl rfl
    · rw [List.mem_singleton] at hc'
      exact Or.inr (Or.inl hc')
  | succ m ih =>
    intro c hc
    rw [textC9_succ m] at hc
    rcases List.mem_cons.1 hc with rfl | hc'
    · exact Or.inl rfl
    rcases List.mem_cons.1 hc' with rfl | hc''
    · exact Or.inr (Or.inl rfl)
    rcases List.mem_cons.1 hc'' with rfl | hc'''
    · exact Or.inr (Or.inr rfl)
    · exact ih c hc'''

theorem chooseSep_textC9 :
    chooseSep (textC9 2000) ragSeparators = (" ".toList, [[]]) := by
  have hnl : ('\n' : Char) ∉ textC9 2000 := by
    intro hmem
    rcases textC9_mem 1999 '\n' hmem with h | h | h <;> exact absurd h (by decide)
  have hdot : ('.' : Char) ∉ textC9 2000 := by
    intro hmem
    rcases textC9_mem 1999 '.' hmem with h | h | h <;> exact absurd h (by decide)
  have hsp : occursL " ".toList (textC9 2000) = true := by
    rw [show (2000 : Nat) = 1998 + 2 from rfl, textC9_succ]
    rw [show (" ".toList : Str) = [' '] from rfl]
    rw [occursL, startsWithL_head_ne (by decide), Bool.false_or]
    rw [occursL, startsWithL_head_ne (by decide), Bool.false_or]
    rw [occursL]
    have : startsWithL [' '] (' ' :: textC9 (1998 + 1)) = true := by
      simp [startsWithL]
    rw [this]
    rfl
  have h1 : occursL "\n\n".toList (textC9 2000) = false := by
    rw [show ("\n\n".toList : Str) = '\n' :: ['\n'] from rfl]
    exact occursL_false_of_not_mem hnl
  have h2 : occursL "\n".toList (textC9 2000) = false := by
    rw [show ("\n".toList : Str) = '\n' :: [] from rfl]
    exact occursL_false_of_not_mem hnl
  have h3 : occursL ". ".toList (textC9 2000) = false := by
    rw [show (". ".toList : Str) = '.' :: [' '] from rfl]
    exact occursL_false_of_not_mem hdot
  show chooseSep (textC9 2000)
      ("\n\n".toList :: ["\n".toList, ". ".toList, " ".toList, []]) = _
  rw [chooseSep_skip _ _ _ (by decide) h1 (by decide),
    chooseSep_skip _ _ _ (by decide) h2 (by decide),
    chooseSep_skip _ _ _ (by decide) h3 (by decide),
    chooseSep_pick _ _ _ (by decide) hsp]

theorem occursL_space_textC9 : occursL " ".toList (textC9 2000) = true := by
  rw [show (2000 : Nat) = 1998 + 2 from rfl, textC9_succ]
  rw [show (" ".toList : Str) = [' '] from rfl]
  rw [occursL, startsWithL_head_ne (by decide), Bool.false_or]
  rw [occursL, startsWithL_head_ne (by decide), Bool.false_or]
  rw [occursL]
  have hsw : startsWithL [' '] (' ' :: textC9 (1998 + 1)) = true := by
    simp [startsWithL]
  rw [hsw]
  rfl

theorem splitOnSepAux_textC9 :
    ∀ (k g : Nat) (acc : Str),
      splitOnSepAux [' '] (3 * k + 2 + g) (textC9 (k + 1)) acc
        = (acc.reverse ++ ['a', 'b']) :: wordsAB k := by
  intro k
  induction k with
  | zero =>
    intro g acc
    rw [show 3 * 0 + 2 + g = (g + 1) + 1 from by omega, textC9_one]
    rw [splitOnSepAux, startsWithL_head_ne (by decide)]
    simp only [Bool.false_eq_true, if_false]
    rw [splitOnSepAux, startsWithL_head_ne (by decide)]
    simp only [Bool.false_eq_true, if_false]
    cases g with
    | zero =>
      rw [splitOnSepAux]
      simp [wordsAB]
    | succ g' =>
      rw [splitOnSepAux]
      simp [wordsAB]
  | succ m ih =>
    intro g acc
    rw [textC9_succ m]
    rw [show 3 * (m + 1) + 2 + g = (3 * m + 4 + g) + 1 from by omega]
    rw [splitOnSepAux, startsWithL_head_ne (by decide)]
    simp only [Bool.false_eq_true, if_false]
    rw [show 3 * m + 4 + g = (3 * m + 3 + g) + 1 from by omega]
    rw [splitOnSepAux, startsWithL_head_ne (by decide)]
    simp only [Bool.false_eq_true, if_false]
    rw [show 3 * m + 3 + g = (3 * m + 2 + g) + 1 from by omega]
    rw [splitOnSepAux]
    have hsw : startsWithL [' '] (' ' :: textC9 (m + 1)) = true := by
      simp [startsWithL]
    rw [hsw, if_pos rfl]
    have hdrop : (' ' :: textC9 (m + 1)).drop ([' '] : Str).length = textC9 (m + 1) := rfl
    rw [hdrop, ih g []]
    have hhead : (('b' :: 'a' :: acc).reverse : Str) = acc.reverse ++ ['a', 'b'] := by
      simp
    rw [hhead]
    have htail : ((([] : Str).reverse ++ ['a', 'b']) :: wordsAB m) = wordsAB (m + 1) := by
      unfold wordsAB
      rw [List.replicate_succ]
      rfl
    rw [htail]

theorem splitOnSep_textC9 : splitOnSep [' '] (textC9 2000) = wordsAB 2000 := by
  unfold splitOnSep
  rw [show (2000 : Nat) = 1999 + 1 from rfl, textC9_length]
  rw [splitOnSepAux_textC9 1999 1 []]
  unfold wordsAB
  rw [List.replicate_succ]
  rfl

theorem splitTextWithSep_textC9 :
    splitTextWithSep " ".toList (textC9 2000)
      = ['a', 'b'] :: List.replicate 1999 [' ', 'a', 'b'] := by
  unfold splitTextWithSep
  rw [if_neg (show ¬(" ".toList : Str) = [] by decide)]
  rw [show (" ".toList : Str) = [' '] from rfl, splitOnSep_textC9]
  unfold wordsAB
  rw [show (2000 : Nat) = 1999 + 1 from rfl, List.replicate_succ]
  simp only [List.map_replicate]
  rw [show ([' '] ++ ['a', 'b'] : Str) = [' ', 'a', 'b'] from rfl]
  rw [List.filter_cons, if_pos (by decide), List.filter_replicate, if_pos (by decide)]

theorem joinWithSep_wordsSab : ∀ k,
    joinWithSep [] (List.replicate (k + 1) [' ', 'a', 'b']) = ' ' :: textC9 (k + 1) := by
  intro k
  induction k with
  | zero => rfl
  | succ m ih =>
    rw [List.replicate_succ, List.replicate_succ, joinWithSep, ← List.replicate_succ,
      ih, textC9_succ]
    · rfl
    · exact fun h => List.cons_ne_nil _ _ h

theorem joinWithSep_piecesC9 (k : Nat) :
    joinWithSep [] (['a', 'b'] :: List.replicate (k + 1) [' ', 'a', 'b'])
      = textC9 (k + 2) := by
  rw [List.replicate_succ, joinWithSep, ← List.replicate_succ, joinWithSep_wordsSab,
    textC9_succ]
  · rfl
  · exact fun h => List.cons_ne_nil _ _ h

theorem textC9_shape : ∀ k, ∃ m : Str, textC9 (k + 1) = 'a' :: m ++ ['b'] := by
  intro k
  induction k with
  | zero => exact ⟨[], rfl⟩
  | succ m ih =>
    obtain ⟨t, ht⟩ := ih
    refine ⟨'b' :: ' ' :: 'a' :: t, ?_⟩
    rw [textC9_succ, ht]
    rfl

theorem stripChars_textC9 (k : Nat) : stripChars (textC9 (k + 1)) = textC9 (k + 1) := by
  obtain ⟨t, ht⟩ := textC9_shape k
  rw [ht]
  exact stripChars_ends (by decide) (by decide) t

theorem joinDocs_piecesC9 :
    joinDocs (['a', 'b'] :: List.replicate 1999 [' ', 'a', 'b']) [] = some (textC9 2000) := by
  unfold joinDocs
  simp only
  rw [show (1999 : Nat) = 1998 + 1 from by norm_num, joinWithSep_piecesC9,
    show (1998 : Nat) + 2 = 1999 + 1 from by norm_num, stripChars_textC9]
  have hne : (textC9 (1999 + 1) : Str) ≠ [] := by
    obtain ⟨t, ht⟩ := textC9_shape 1999
    rw [ht]
    exact List.cons_ne_nil _ _
  rw [if_neg hne, show (1999 : Nat) + 1 = 2000 from by norm_num]

theorem mergeGo_zero {lenf : Str → Nat} (h0 : lenf [] = 0) :
    ∀ (ss docs current : List Str), (∀ s ∈ ss, lenf s = 0) →
      mergeSplitsGo lenf [] ragChunkSize ragChunkOverlap docs current 0 ss
        = match joinDocs (current ++ ss) [] with
          | some doc => docs ++ [doc]
          | none => docs := by
  intro ss
  induction ss with
  | nil =>
    intro docs current _
    rw [mergeSplitsGo, List.append_nil]
  | cons d ds ih =>
    intro docs current hz
    have hd : lenf d = 0 := hz d (List.mem_cons_self d ds)
    rw [mergeSplitsGo]
    simp only
    rw [if_neg ?hcond]
    case hcond =>
      rintro ⟨hgt, hcur⟩
      rw [hd, h0, if_pos hcur] at hgt
      exact absurd hgt (by norm_num [ragChunkSize])
    have htot : 0 + lenf d + (if current ≠ [] then lenf [] else 0) = 0 := by
      rw [hd, h0, ite_self]
    rw [htot, ih docs (current ++ [d]) (fun s hs => hz s (List.mem_cons_of_mem d hs))]
    rw [List.append_cons current d ds]

theorem splitText_textC9 :
    splitText fallbackTokenCount (textC9 2000) = [textC9 2000] := by
  unfold splitText
  rw [show ragSeparators.length + 1 = 5 + 1 from rfl, splitTextRec, chooseSep_textC9]
  simp only
  rw [splitTextWithSep_textC9]
  rw [processSplits_all_good _ _ _ ?hgood]
  case hgood =>
    intro s hs
    rcases List.mem_cons.1 hs with rfl | h
    · norm_num [fallbackTokenCount, ragChunkSize]
    · have hsab := List.eq_of_mem_replicate h
      subst hsab
      norm_num [fallbackTokenCount, ragChunkSize]
  have hne9 : (([] : List Str) ++ (['a', 'b'] :: List.replicate 1999 [' ', 'a', 'b'])
      = []) → False := by
    rw [List.nil_append]
    exact fun h => List.cons_ne_nil _ _ h
  rw [if_neg hne9, List.nil_append, List.nil_append]
  unfold mergeSplits
  rw [mergeGo_zero (by norm_num [fallbackTokenCount]) _ _ _ ?hz]
  case hz =>
    intro s hs
    rcases List.mem_cons.1 hs with rfl | h
    · decide
    · have hsab := List.eq_of_mem_replicate h
      subst hsab
      decide
  rw [List.nil_append, joinDocs_piecesC9]
  rfl

theorem tokens_textC9 : fallbackTokenCount (textC9 2000) = 1499 := by
  unfold fallbackTokenCount
  rw [show (2000 : Nat) = 1999 + 1 from by norm_num, textC9_length]

/-- C9 is false as stated: the configured splitter (budget 1000, overlap 200,
fallback token count) returns the 2000-word text `textC9 2000` as a single
chunk of 1499 tokens, well over the 1000-token budget, even though the text
is not a single unbreakable token — it contains the `" "` separator, so the
claimed single-unsplittable-token exception does not apply.  The merge loop
bounds chunks by the length function only piecewise; many sub-budget pieces
still accumulate into an over-budget chunk because each word measures 0
fallback tokens. -/
theorem chunk_exceeds_budget :
    splitText fallbackTokenCount (textC9 2000) = [textC9 2000] ∧
    ragChunkSize < fallbackTokenCount (textC9 2000) ∧
    occursL " ".toList (textC9 2000) = true := by
  refine ⟨splitText_textC9, ?_, occursL_space_textC9⟩
  rw [tokens_textC9]
  norm_num [ragChunkSize]

theorem chooseSep_empty (t : Str) (rest : List Str) :
    chooseSep t ([] :: rest) = ([], []) := by
  conv_lhs => rw [chooseSep.eq_def]
  simp

theorem splitTextWithSep_nil (w : Str) :
    splitTextWithSep [] w = w.map (fun c => ([c] : Str)) := by
  unfold splitTextWithSep
  rw [if_pos rfl, List.filter_eq_self.2]
  intro a ha
  obtain ⟨c, -, rfl⟩ := List.mem_map.1 ha
  simp

theorem dropWhile_eq_self_of_all {p : Char → Bool} {l : Str}
    (h : ∀ c ∈ l, p c = false) : l.dropWhile p = l := by
  cases l with
  | nil => rfl
  | cons c cs =>
    rw [List.dropWhile_cons, h c (List.mem_cons_self c cs)]
    simp

theorem stripChars_of_no_ws {w : Str} (h : ∀ c ∈ w, isSpaceChar c = false) :
    stripChars w = w := by
  unfold stripChars
  rw [dropWhile_eq_self_of_all h,
    dropWhile_eq_self_of_all (fun c hc => h c (List.mem_reverse.1 hc)),
    List.reverse_reverse]

theorem joinWithSep_nil_singletons : ∀ w : Str,
    joinWithSep [] (w.map (fun c => ([c] : Str))) = w := by
  intro w
  induction w with
  | nil => rfl
  | cons c cs ih =>
    cases cs with
    | nil => rfl
    | cons c₂ cs₂ =>
      rw [List.map_cons] at ih
      rw [List.map_cons, List.map_cons, joinWithSep, ih]
      · rfl
      · exact fun h => List.cons_ne_nil _ _ h

theorem processSplits_final_mem {lenf : Str → Nat} {chunkSize : Nat}
    {mergeFn : List Str → List Str} {recurse : Str → List Str} {fe : Bool} {x : Str} :
    ∀ (ss good final : List Str), x ∈ final →
      x ∈ processSplits lenf chunkSize mergeFn recurse fe ss good final := by
  intro ss
  induction ss with
  | nil =>
    intro good final hx
    rw [processSplits]
    by_cases hg : good ≠ [] <;> simp [hg, hx]
  | cons d ds ih =>
    intro good final hx
    rw [processSplits]
    by_cases hd : lenf d < chunkSize
    · rw [if_pos hd]
      exact ih (good ++ [d]) final hx
    · rw [if_neg hd]
      simp only
      apply ih
      have hx₁ : x ∈ (if good ≠ [] then final ++ mergeFn good else final) := by
        by_cases hg : good ≠ [] <;> simp [hg, hx]
      cases fe with
      | false => simp only [Bool.false_eq_true, if_false]; exact List.mem_append_left _ hx₁
      | true => simp only [if_true]; exact List.mem_append_left _ hx₁

theorem processSplits_emits_oversized {lenf : Str → Nat} {chunkSize : Nat}
    {mergeFn : List Str → List Str} {recurse : Str → List Str} {s : Str} :
    ∀ (ss good final : List Str), s ∈ ss → ¬ lenf s < chunkSize →
      s ∈ processSplits lenf chunkSize mergeFn recurse true ss good final := by
  intro ss
  induction ss with
  | nil => intro good final hs; cases hs
  | cons d ds ih =>
    intro good final hs hbig
    rcases List.mem_cons.1 hs with rfl | hs'
    · rw [processSplits, if_neg hbig]
      simp only [if_true]
      apply processSplits_final_mem
      exact List.mem_append_right _ (List.mem_singleton.2 rfl)
    · rw [processSplits]
      by_cases hd : lenf d < chunkSize
      · rw [if_pos hd]
        exact ih (good ++ [d]) final hs' hbig
      · rw [if_neg hd]
        simp only [if_true]
        exact ih [] _ hs' hbig

theorem splitText_unbreakable {w : Str} (hw : w ≠ [])
    (hc : ∀ c ∈ w, isSpaceChar c = false ∧ ¬ c = '.') :
    splitText fallbackTokenCount w = [w] := by
  have hnl : ('\n' : Char) ∉ w := fun hm => absurd ((hc _ hm).1) (by decide)
  have hsp : (' ' : Char) ∉ w := fun hm => absurd ((hc _ hm).1) (by decide)
  have hdot : ('.' : Char) ∉ w := fun hm => (hc _ hm).2 rfl
  have hcs : chooseSep w ragSeparators = ([], []) := by
    show chooseSep w
        ("\n\n".toList :: ["\n".toList, ". ".toList, " ".toList, []]) = _
    rw [chooseSep_skip _ _ _ (by decide)
        (by rw [show ("\n\n".toList : Str) = '\n' :: ['\n'] from rfl]
            exact occursL_false_of_not_mem hnl) (by decide),
      chooseSep_skip _ _ _ (by decide)
        (by rw [show ("\n".toList : Str) = '\n' :: [] from rfl]
            exact occursL_false_of_not_mem hnl) (by decide),
      chooseSep_skip _ _ _ (by decide)
        (by rw [show (". ".toList : Str) = '.' :: [' '] from rfl]
            exact occursL_false_of_not_mem hdot) (by decide),
      chooseSep_skip _ _ _ (by decide)
        (by rw [show (" ".toList : Str) = ' ' :: [] from rfl]
            exact occursL_false_of_not_mem hsp) (by decide),
      chooseSep_empty]
  unfold splitText
  rw [show ragSeparators.length + 1 = 5 + 1 from rfl, splitTextRec, hcs]
  simp only
  rw [splitTextWithSep_nil]
  have hgood : ∀ s ∈ w.map (fun c => ([c] : Str)),
      fallbackTokenCount s < ragChunkSize := by
    intro s hs
    obtain ⟨c, -, rfl⟩ := List.mem_map.1 hs
    norm_num [fallbackTokenCount, ragChunkSize]
  rw [processSplits_all_good _ _ _ hgood]
  have hne : ¬ (([] : List Str) ++ w.map (fun c => ([c] : Str)) = []) := by
    rw [List.nil_append]
    cases w with
    | nil => exact absurd rfl hw
    | cons c cs => simp
  rw [if_neg hne, List.nil_append, List.nil_append]
  unfold mergeSplits
  have hz : ∀ s ∈ w.map (fun c => ([c] : Str)), fallbackTokenCount s = 0 := by
    intro s hs
    obtain ⟨c, -, rfl⟩ := List.mem_map.1 hs
    norm_num [fallbackTokenCount]
  rw [mergeGo_zero (by norm_num [fallbackTokenCount]) _ _ _ hz, List.nil_append]
  have hjd : joinDocs (w.map (fun c => ([c] : Str))) [] = some w := by
    unfold joinDocs
    simp only
    rw [joinWithSep_nil_singletons,
      stripChars_of_no_ws (fun c hcw => (hc c hcw).1), if_neg hw]
  rw [hjd]
  rfl

/-- C9 (amended): three facts about chunk sizing.  First, the merge step
bounds the sum of the measured sizes of the pieces composing a chunk by the
chunk budget, so under a length measure that is additive over concatenation
— the character count — every chunk it produces from pieces measuring under
the budget is itself within the budget.  (Under the code's token measures,
which are not additive, a chunk's own measure can exceed the budget: see
the counterexample.)  Second, the single-unsplittable-token edge case at
the piece level: when no finer separators remain, a piece measuring at or
over the budget is emitted as-is into the output rather than recursed on.
Third, end to end with the configured splitter and the in-repo fallback
token count: a non-empty word containing no whitespace and no `'.'` — so no
configured separator occurs in it — is returned as the single chunk,
unchanged, whatever its length; the splitter never raises and its bounded
recursion accepts the unbreakable word rather than recursing forever. -/
theorem merge_bounds_chunk_size :
    (∀ (CS OV : Nat) (splits : List Str), (∀ s ∈ splits, s.length < CS) →
      ∀ c ∈ mergeSplits (fun s => s.length) [] CS OV splits, c.length ≤ CS) ∧
    (∀ (lenf : Str → Nat) (CS : Nat) (mergeFn : List Str → List Str)
      (recurse : Str → List Str) (ss good final : List Str) (s : Str),
      s ∈ ss → ¬ lenf s < CS →
      s ∈ processSplits lenf CS mergeFn recurse true ss good final) ∧
    (∀ w : Str, w ≠ [] → (∀ c ∈ w, isSpaceChar c = false ∧ ¬ c = '.') →
      splitText fallbackTokenCount w = [w]) :=
  ⟨fun CS OV splits h =>
    mergeGo_length_bound CS OV splits [] [] 0 h rfl (Nat.zero_le CS)
      (fun c hc => by cases hc),
   fun _ _ _ _ ss good final s hs hbig =>
    processSplits_emits_oversized ss good final hs hbig,
   fun _ hw hch => splitText_unbreakable hw hch⟩

/-- Witness for `merge_bounds_chunk_size`: a concrete in-budget merge; a
concrete oversized piece emitted as-is at the no-finer-separators level; and
a 5000-character unbreakable word — 1250 fallback tokens, over the 1000
budget — returned by the configured splitter as the single chunk,
unchanged. -/
theorem merge_bounds_chunk_size_witness :
    ("abcdefgh".toList : Str).length ≤ 10 ∧
    "abc".toList ∈ processSplits (fun s => s.length) 2 id (fun _ => [])
      true ["abc".toList] [] [] ∧
    splitText fallbackTokenCount (List.replicate 5000 'x')
      = [List.replicate 5000 'x'] ∧
    ragChunkSize < fallbackTokenCount (List.replicate 5000 'x') := by
  refine ⟨merge_bounds_chunk_size.1 10 3
      ["abcd".toList, "efgh".toList, "ijkl".toList] (by decide)
      "abcdefgh".toList (by decide),
    merge_bounds_chunk_size.2.1 (fun s => s.length) 2 id (fun _ => [])
      ["abc".toList] [] [] "abc".toList (by decide) (by decide),
    merge_bounds_chunk_size.2.2 (List.replicate 5000 'x') ?_ ?_, ?_⟩
  · rw [show (5000 : Nat) = 4999 + 1 from by norm_num, List.replicate_succ]
    exact List.cons_ne_nil _ _
  · intro c hcm
    rw [List.eq_of_mem_replicate hcm]
    exact ⟨by decide, by decide⟩
  · show 1000 < fallbackTokenCount (List.replicate 5000 'x')
    unfold fallbackTokenCount
    rw [List.length_replicate]
    norm_num
